import Mathlib

/-!
Verification of the trace-to-compilation-database pipeline of `bear.py`
(`src/analyzer/bear.py`).

The development shallowly embeds the pipeline:

* a small regular-expression engine over `Char` (Brzozowski derivatives)
  used to embed the Python `re` patterns of `known_compiler` and
  `cancel_parameter` literally;
* the record parser `parse`, the filter `general_filter`, the entry
  expander `format_record` (with POSIX path arithmetic for
  `os.path.abspath`), and the deduplicating `merge`;
* the `main` control flow, parameterised over the outside world
  (filesystem, working directory, external command classifier, trace-file
  contents and the build command's exit code).

Python's dynamic features are made explicit: `os.path.exists` becomes a
`String → Bool` parameter, raised exceptions become `Except String`, and
the external classifier `analyzer.command.parse` (not part of the sources
under verification) is an explicit function parameter.
-/

namespace Bear

/-! ## A character-level regular expression engine

Python `re` patterns in the source use character classes (`[^/]`, `[2345]`,
`[0-9]`, `.`), so the regex type carries a decidable character predicate at
its leaves.  Matching is by Brzozowski derivatives. -/

/-- Regular expressions over `Char` with arbitrary (boolean) character
classes at the leaves. -/
inductive Regex : Type where
  | emp : Regex
  | eps : Regex
  | cls (p : Char → Bool) : Regex
  | comp (r s : Regex) : Regex
  | plus (r s : Regex) : Regex
  | star (r : Regex) : Regex

/-- Does the regex accept the empty string? -/
def Regex.nullable : Regex → Bool
  | .emp => false
  | .eps => true
  | .cls _ => false
  | .comp r s => r.nullable && s.nullable
  | .plus r s => r.nullable || s.nullable
  | .star _ => true

/-- Brzozowski derivative of a regex with respect to one character. -/
def Regex.deriv : Regex → Char → Regex
  | .emp, _ => .emp
  | .eps, _ => .emp
  | .cls p, c => if p c then .eps else .emp
  | .comp r s, c =>
      if r.nullable then .plus (.comp (r.deriv c) s) (s.deriv c)
      else .comp (r.deriv c) s
  | .plus r s, c => .plus (r.deriv c) (s.deriv c)
  | .star r, c => .comp (r.deriv c) (.star r)

/-- Derivative-based matching: `rmatch r s` decides whether `r` accepts the
whole string `s`. -/
def Regex.rmatch : Regex → List Char → Bool
  | r, [] => r.nullable
  | r, c :: s => (r.deriv c).rmatch s

/-! ## Data model -/

/-- One intercepted process invocation, as produced by `parse` from a raw
trace file: keys `pid`, `ppid`, `function`, `directory`, `command`. -/
structure ProcessRecord where
  pid : String
  ppid : String
  function : String
  directory : String
  command : List String
deriving DecidableEq

/-- One row of the compilation database, as produced by `format_record`:
keys `directory`, `command`, `file`. -/
structure CompilationEntry where
  directory : String
  command : String
  file : String
deriving DecidableEq

/-! ## The compiler recognizer (`general_filter`)

The Python source compiles four `re` patterns for `known_compiler` and one
for `cancel_parameter`; they are transcribed literally below. -/

/-- A single literal character. -/
def chr (c : Char) : Regex := .cls (fun d => d == c)

/-- A literal string of characters. -/
def strR : List Char → Regex
  | [] => .eps
  | c :: cs => .comp (chr c) (strR cs)

/-- A negated character class such as `[^/]`. -/
def notCls (cs : List Char) : Regex := .cls (fun d => !(cs.contains d))

/-- A character class such as `[2345]`. -/
def inCls (cs : List Char) : Regex := .cls (fun d => cs.contains d)

/-- The class `[0-9]`. -/
def digitCls : Regex := .cls (fun d => '0' ≤ d && d ≤ '9')

/-- `.` — any character except a newline. -/
def dotAny : Regex := .cls (fun d => d != '\n')

/-- `(…)?` -/
def opt (r : Regex) : Regex := .plus r .eps

/-- `([^x]*x)*` — the shape of the prefixes `([^/]*/)*` and `([^-]*-)*`. -/
def sepPre (c : Char) : Regex := .star (.comp (.star (notCls [c])) (chr c))

/-- `^([^/]*/)*c(c|\+\+)$` -/
def pat_cc : Regex :=
  .comp (sepPre '/') (.comp (chr 'c') (.plus (chr 'c') (strR ['+', '+'])))

/-- The version suffix `-[2345].[0-9]` of the GNU pattern (the `.` is an
unescaped any-character in the source). -/
def gnuVer : Regex :=
  .comp (chr '-') (.comp (inCls ['2', '3', '4', '5']) (.comp dotAny digitCls))

/-- `^([^/]*/)*([^-]*-)*g(cc|\+\+)(-[2345].[0-9])?$` -/
def pat_gnu : Regex :=
  .comp (sepPre '/') (.comp (sepPre '-')
    (.comp (chr 'g')
      (.comp (.plus (strR ['c', 'c']) (strR ['+', '+'])) (opt gnuVer))))

/-- The version suffix `-[23].[0-9]` of the Clang pattern. -/
def clangVer : Regex :=
  .comp (chr '-') (.comp (inCls ['2', '3']) (.comp dotAny digitCls))

/-- `^([^/]*/)*([^-]*-)*clang(\+\+)?(-[23].[0-9])?$` -/
def pat_clang : Regex :=
  .comp (sepPre '/') (.comp (sepPre '-')
    (.comp (strR ['c', 'l', 'a', 'n', 'g'])
      (.comp (opt (strR ['+', '+'])) (opt clangVer))))

/-- `^([^/]*/)*llvm-g(cc|\+\+)$` -/
def pat_llvm : Regex :=
  .comp (sepPre '/') (.comp (strR ['l', 'l', 'v', 'm', '-', 'g'])
    (.plus (strR ['c', 'c']) (strR ['+', '+'])))

/-- Python `pattern.match` for an anchored `^…$` pattern: a match of the
whole string, where the `$` anchor also accepts a position just before one
trailing newline. -/
def pymatch (r : Regex) (s : List Char) : Bool :=
  r.rmatch s || (s.getLast? == some '\n' && r.rmatch s.dropLast)

/-- The four patterns of `known_compiler`, in source order. -/
def compilerPatterns : List Regex := [pat_cc, pat_gnu, pat_clang, pat_llvm]

/-- `known_compiler`: does `command[0]` match one of the compiler patterns?
(Python would raise `IndexError` on an empty argv; the empty case is mapped
to `false` and never arises in the claims below.) -/
def known_compiler (command : List String) : Bool :=
  match command with
  | [] => false
  | executable :: _ => compilerPatterns.any (fun p => pymatch p executable.toList)

/-- The single pattern `^-cc1$` of `cancel_parameter`. -/
def pat_cc1 : Regex := strR ['-', 'c', 'c', '1']

/-- `cancel_parameter`: does some argument in `command[1:]` match
`^-cc1$`? -/
def cancel_parameter (command : List String) : Bool :=
  (command.drop 1).any (fun arg => pymatch pat_cc1 arg.toList)

/-- `general_filter`: keep the records recognised as compiler invocations. -/
def general_filter (records : List ProcessRecord) : List ProcessRecord :=
  records.filter (fun r => known_compiler r.command && !cancel_parameter r.command)

/-! ## The deduplicating merger (`merge`)

`os.path.exists` becomes an explicit filesystem parameter
`fs : String → Bool`, and the mutable `state` set becomes an explicit list
of hashes threaded through the fold. -/

/-- The whitespace characters of a POSIX `shlex` lexer. -/
def is_shlex_ws (c : Char) : Bool := c == ' ' || c == '\t' || c == '\r' || c == '\n'

/-- Word accumulator for `shlex_split`. -/
def split_ws_aux (acc : List Char) : List Char → List (List Char)
  | [] => if acc.isEmpty then [] else [acc.reverse]
  | c :: rest =>
    if is_shlex_ws c then
      if acc.isEmpty then split_ws_aux [] rest
      else acc.reverse :: split_ws_aux [] rest
    else split_ws_aux (c :: acc) rest

/-- Model of Python `shlex.split` for command strings without quoting or
escape metacharacters: split on runs of whitespace.  All commands this
module builds are plain space-joined argv vectors, on which `shlex.split`
is exactly whitespace splitting. -/
def shlex_split (s : String) : List String :=
  (split_ws_aux [] s.toList).map (fun w => String.mk w)

/-- String reversal, `s[::-1]`. -/
def strRev (s : String) : String := String.mk s.toList.reverse

/-- `hash_cdb`: the deduplication key of an entry — the reversed file path,
the reversed directory path, and the command with its first word removed,
joined by `<>`. -/
def hash_cdb (e : CompilationEntry) : String :=
  String.intercalate "<>"
    [strRev e.file, strRev e.directory,
      String.intercalate " " ((shlex_split e.command).drop 1)]

/-- `duplicate`: drop decision for one entry, together with the updated set
of seen keys.  Mirrors the source: a missing file drops the entry without
touching the state; a fresh key is recorded and the entry kept. -/
def duplicate (fs : String → Bool) (state : List String) (e : CompilationEntry) :
    Bool × List String :=
  if fs e.file then
    if state.contains (hash_cdb e) then (true, state)
    else (false, hash_cdb e :: state)
  else (true, state)

/-- The comprehension `[entry for entry in old + new if not duplicate(state, entry)]`
with the mutable state made explicit; the final state is returned as well. -/
def mergeAux (fs : String → Bool) (state : List String) :
    List CompilationEntry → List CompilationEntry × List String
  | [] => ([], state)
  | e :: rest =>
    match duplicate fs state e with
    | (true, st) => mergeAux fs st rest
    | (false, st) =>
      let r := mergeAux fs st rest
      (e :: r.1, r.2)

/-- `merge`: deduplicating merge of the existing database with the newly
collected entries, in that order. -/
def merge (fs : String → Bool) (old new : List CompilationEntry) :
    List CompilationEntry :=
  (mergeAux fs [] (old ++ new)).1

/-- The merge pass as the spec describes it: an entry is kept exactly when
its file exists and no earlier entry of the pass whose file exists carries
the same deduplication key.  `prev` accumulates the entries already
processed. -/
def first_seen_spec (fs : String → Bool) (prev : List CompilationEntry) :
    List CompilationEntry → List CompilationEntry
  | [] => []
  | e :: rest =>
    if fs e.file &&
        !(prev.any (fun p => fs p.file && (hash_cdb p == hash_cdb e))) then
      e :: first_seen_spec fs (prev ++ [e]) rest
    else first_seen_spec fs (prev ++ [e]) rest

/-! ## The record reader (`parse`) -/

/-- Python `str.split(sep)` for a one-character separator: split at every
occurrence of `sep`, keeping empty fields (so splitting the empty string
gives `[""]`). -/
def pysplit (sep : Char) : List Char → List (List Char)
  | [] => [[]]
  | c :: rest =>
    match pysplit sep rest with
    | [] => [[]]
    | t :: ts => if c = sep then [] :: t :: ts else (c :: t) :: ts

/-- The ASCII record separator `0x1e` of the raw trace format. -/
def RS : Char := Char.ofNat 0x1e

/-- The ASCII unit separator `0x1f` of the raw trace format. -/
def US : Char := Char.ofNat 0x1f

/-- `parse`: split one raw trace file's content on the record separator into
`pid`, `ppid`, `function`, `directory` and the command field, then split the
command field on the unit separator and discard the last piece (`[:-1]`).
Fewer than five record-separated fields raise `IndexError`. -/
def parse (content : String) : Except String ProcessRecord :=
  match pysplit RS content.toList with
  | p :: pp :: fn :: dir :: cmd :: _ =>
    .ok { pid := String.mk p, ppid := String.mk pp, function := String.mk fn,
          directory := String.mk dir,
          command := ((pysplit US cmd).dropLast).map String.mk }
  | _ => .error "IndexError"

/-- Reading one trace file: an unopenable file (`none`) raises `IOError`,
otherwise the content is parsed. -/
def parse_file (content : Option String) : Except String ProcessRecord :=
  match content with
  | none => .error "IOError"
  | some c => parse c

/-! ## The entry expander (`format_record`)

`os.path.abspath(p)` is `normpath(join(cwd, p))` where `cwd` is the working
directory of the tool itself; it becomes an explicit parameter.  The POSIX
path arithmetic is translated from the CPython `posixpath` module. -/

/-- POSIX `os.path.isabs`: does the path start with a slash?  (Stated over
the character list so that it evaluates inside the kernel.) -/
def isabs (p : String) : Bool := p.toList.take 1 == ['/']

/-- POSIX `os.path.join` on two components. -/
def pjoin (a b : String) : String :=
  if isabs b then b
  else if a.toList == [] || a.toList.getLast? == some '/' then a ++ b
  else a ++ "/" ++ b

/-- One step of the component normalisation loop of `posixpath.normpath`. -/
def normpathStep (initialSlashes : Nat) (acc : List (List Char))
    (comp : List Char) : List (List Char) :=
  if comp = [] || comp = ['.'] then acc
  else if comp ≠ ['.', '.'] || (initialSlashes = 0 && acc = []) ||
      (acc ≠ [] && acc.getLast? = some ['.', '.']) then acc ++ [comp]
  else if acc ≠ [] then acc.dropLast
  else acc

/-- CPython `posixpath.normpath`. -/
def normpath (path : String) : String :=
  if path.toList = [] then "."
  else
    let initialSlashes : Nat :=
      if path.toList.take 1 = ['/'] then
        if path.toList.take 2 = ['/', '/'] && !(path.toList.take 3 = ['/', '/', '/']) then 2
        else 1
      else 0
    let comps := pysplit '/' path.toList
    let newComps := comps.foldl (normpathStep initialSlashes) []
    let joined := String.intercalate "/" (newComps.map String.mk)
    let out := String.mk (List.replicate initialSlashes '/') ++ joined
    if out.toList = [] then "." else out

/-- Python `os.path.abspath` with the current working directory explicit:
`normpath(join(cwd, path))`. -/
def abspath (cwd path : String) : String := normpath (pjoin cwd path)

/-- Modelled from the spec: the action tags of the external classifier
(`classify(argv) -> {action: enum{Compile, Link, Other, ...}, files}`).
The classifier `analyzer.command.parse` is an external collaborator, not
part of the sources under verification; it is passed as a function
parameter below. -/
inductive Action : Type where
  | Compile : Action
  | Link : Action
  | Other : Action
deriving DecidableEq

/-- `join_command`: the argv vector joined with single spaces. -/
def join_command (args : List String) : String := String.intercalate " " args

/-- `format_record`, with the external classifier and the tool's working
directory (consulted by `os.path.abspath`) explicit: a record classified as
a compile action yields one entry per source-file operand. -/
def format_record (classify : List String → Action × List String)
    (cwd : String) (records : List ProcessRecord) : List CompilationEntry :=
  records.flatMap (fun record =>
    let atoms := classify record.command
    if atoms.1 = Action.Compile then
      atoms.2.map (fun filename =>
        { directory := record.directory,
          command := join_command record.command,
          file := abspath cwd filename })
    else [])

/-! ## The `main` control flow

The world is explicit: the build's exit code, the contents of the trace
files the build left behind, the existing database, the filesystem and the
tool's working directory are all inputs; the written database is part of
the result. -/

/-- The eager comprehension `[parse(file) for file in glob(...)]` of
`collect`: every trace file parsed in order, the first failure aborting. -/
def collect_records : List String → Except String (List ProcessRecord)
  | [] => .ok []
  | t :: ts => do
    let r ← parse t
    let rs ← collect_records ts
    pure (r :: rs)

/-- `collect` with filtering enabled (the default path):
`format_record(general_filter(records))`. -/
def collect_filtered (classify : List String → Action × List String)
    (cwd : String) (traces : List String) :
    Except String (List CompilationEntry) := do
  let records ← collect_records traces
  pure (format_record classify cwd (general_filter records))

/-- `main` on the filtered path: run the build (the exit code is an input),
take the existing entries when appending, collect, merge, and return the
written database together with the build's exit code. -/
def main_filtered (classify : List String → Action × List String)
    (cwd : String) (fs : String → Bool) (buildExitCode : Int)
    (append : Bool) (existing : List CompilationEntry)
    (traces : List String) : Except String (Int × List CompilationEntry) := do
  let currents := if append then existing else []
  let entries ← collect_filtered classify cwd traces
  let commands := merge fs currents entries
  pure (buildExitCode, commands)

/-! ## The `--disable-filter` path

With filtering disabled, `collect` returns the raw parsed records (Python
dictionaries with keys `pid`, `ppid`, `function`, `directory`, `command`)
and `merge` receives them unformatted, so `entry['file']` is a lookup in a
dictionary without a `file` key. -/

/-- A value stored in a record dictionary. -/
inductive PyVal : Type where
  | str (s : String) : PyVal
  | strs (l : List String) : PyVal
deriving DecidableEq

/-- The dictionary built by `parse`: keys `pid`, `ppid`, `function`,
`directory` and `command` — no `file` key. -/
def record_items (r : ProcessRecord) : List (String × PyVal) :=
  [("pid", .str r.pid), ("ppid", .str r.ppid), ("function", .str r.function),
    ("directory", .str r.directory), ("command", .strs r.command)]

/-- Python dictionary lookup: a missing key raises `KeyError`. -/
def dict_get (d : List (String × PyVal)) (k : String) : Except String PyVal :=
  match d.find? (fun kv => kv.1 == k) with
  | some kv => .ok kv.2
  | none => .error "KeyError"

/-- An element of the list handed to `merge`: a formatted database entry,
or — on the `--disable-filter` path — a raw process record. -/
inductive CdbItem : Type where
  | entry (e : CompilationEntry) : CdbItem
  | record (r : ProcessRecord) : CdbItem
deriving DecidableEq

/-- The lookup `entry['file']` on either item shape. -/
def item_file : CdbItem → Except String String
  | .entry e => .ok e.file
  | .record r => do
    match ← dict_get (record_items r) "file" with
    | .str s => pure s
    | .strs _ => .error "TypeError"

/-- `duplicate` as reached on the `--disable-filter` path: its very first
expression `os.path.exists(entry['file'])` evaluates `entry['file']`, which
raises for a raw record. -/
def duplicate_u (fs : String → Bool) (state : List String) (it : CdbItem) :
    Except String (Bool × List String) := do
  let file ← item_file it
  if fs file then
    match it with
    | .entry e =>
      if state.contains (hash_cdb e) then pure (true, state)
      else pure (false, hash_cdb e :: state)
    | .record _ => pure (true, state)
  else
    pure (true, state)

/-- The merge fold on the heterogeneous list, in the exception monad. -/
def mergeAux_u (fs : String → Bool) (state : List String) :
    List CdbItem → Except String (List CdbItem)
  | [] => .ok []
  | it :: rest => do
    let r ← duplicate_u fs state it
    let out ← mergeAux_u fs r.2 rest
    pure (if r.1 then out else it :: out)

/-- `merge` as reached on the `--disable-filter` path. -/
def merge_u (fs : String → Bool) (old new : List CdbItem) :
    Except String (List CdbItem) :=
  mergeAux_u fs [] (old ++ new)

/-- `main` on the `--disable-filter` path. -/
def main_unfiltered (fs : String → Bool) (buildExitCode : Int)
    (append : Bool) (existing : List CompilationEntry)
    (traces : List String) : Except String (Int × List CdbItem) := do
  let currents := if append then existing else []
  let records ← collect_records traces
  let commands ← merge_u fs (currents.map CdbItem.entry)
    (records.map CdbItem.record)
  pure (buildExitCode, commands)

/-- Did an exceptional computation complete without raising? -/
def except_isOk {α : Type} : Except String α → Bool
  | .ok _ => true
  | .error _ => false

/-! ## Characterisations of the recognizer

`claim_compiler_charter` renders, word for word, the token set described by
the specification for `known_compiler` (dotted one-or-two-digit version
suffixes; no extra dash prefix for the Clang form).
`code_compiler_charter` is an independent structural description of the
token set the transcribed source patterns accept; it is proved equivalent
to `known_compiler` below, and differs from `claim_compiler_charter`. -/

/-- Does the character list end with `c`? -/
def ends_with (c : Char) (l : List Char) : Bool := l.getLast? == some c

/-- Try every split of `t` into a prefix and a suffix. -/
def splits_any (t : List Char) (f : List Char → List Char → Bool) : Bool :=
  (List.range (t.length + 1)).any (fun i => f (t.take i) (t.drop i))

/-- A directory prefix: empty or ending in a slash. -/
def slash_pre_ok (p : List Char) : Bool := p.isEmpty || ends_with '/' p

/-- What the prefix pair `([^/]*/)*([^-]*-)*` accepts: empty, or ending in
a slash, or ending in a dash. -/
def mixed_pre_ok (p : List Char) : Bool :=
  p.isEmpty || ends_with '/' p || ends_with '-' p

/-- A decimal digit. -/
def is_digit (c : Char) : Bool := '0' ≤ c && c ≤ '9'

/-- The version suffix `-[2345].[0-9]` actually accepts: `-`, a digit `2`
to `5`, one arbitrary non-newline character (the dot is unescaped), and a
digit. -/
def gnu_version_ok (v : List Char) : Bool :=
  match v with
  | [d, a, b, c] =>
    d == '-' && (a == '2' || a == '3' || a == '4' || a == '5') &&
      b != '\n' && is_digit c
  | _ => false

/-- The version suffix `-[23].[0-9]` actually accepts. -/
def clang_version_ok (v : List Char) : Bool :=
  match v with
  | [d, a, b, c] => d == '-' && (a == '2' || a == '3') && b != '\n' && is_digit c
  | _ => false

/-- The GNU core: `gcc` or `g++`, optionally followed by a version. -/
def gnu_core_ok (b : List Char) : Bool :=
  (b.take 3 == ['g', 'c', 'c'] || b.take 3 == ['g', '+', '+']) &&
    (b.drop 3 == [] || gnu_version_ok (b.drop 3))

/-- The Clang tail after `clang`: nothing, `++`, a version, or both. -/
def clang_tail_ok (r : List Char) : Bool :=
  r == [] || r == ['+', '+'] || clang_version_ok r ||
    (r.take 2 == ['+', '+'] && clang_version_ok (r.drop 2))

/-- The Clang core: `clang`, then a tail. -/
def clang_core_ok (b : List Char) : Bool :=
  b.take 5 == ['c', 'l', 'a', 'n', 'g'] && clang_tail_ok (b.drop 5)

/-- The token set the four transcribed patterns accept, described
structurally, before the trailing-newline tolerance of `$`. -/
def code_compiler_core (t : List Char) : Bool :=
  splits_any t (fun p b =>
    slash_pre_ok p && (b == ['c', 'c'] || b == ['c', '+', '+'])) ||
  splits_any t (fun p b => mixed_pre_ok p && gnu_core_ok b) ||
  splits_any t (fun p b => mixed_pre_ok p && clang_core_ok b) ||
  splits_any t (fun p b =>
    slash_pre_ok p &&
      (b == ['l', 'l', 'v', 'm', '-', 'g', 'c', 'c'] ||
        b == ['l', 'l', 'v', 'm', '-', 'g', '+', '+']))

/-- The full structural description of the token set `known_compiler`
accepts: `code_compiler_core`, also accepting one trailing newline. -/
def code_compiler_charter (t : List Char) : Bool :=
  code_compiler_core t ||
    (ends_with '\n' t && code_compiler_core t.dropLast)

/-- A dotted one-or-two-digit version as the claim words it: `-`, one or
two digits, a literal dot, one or two digits. -/
def claim_version_ok (v : List Char) : Bool :=
  match v with
  | '-' :: rest =>
    splits_any rest (fun a b =>
      match b with
      | '.' :: bs =>
        a.all is_digit && bs.all is_digit &&
          decide (1 ≤ a.length) && decide (a.length ≤ 2) &&
          decide (1 ≤ bs.length) && decide (bs.length ≤ 2)
      | _ => false)
  | _ => false

/-- The token set claim C6 describes: after an optional directory prefix
ending in `/`, exactly `cc` or `c++`; a GNU-style name (optional
dash-terminated target-triple prefix, then `gcc` or `g++`, optionally a
dotted version); `clang` or `clang++` with an optional dotted version (no
further prefix); or `llvm-gcc`/`llvm-g++`. -/
def claim_compiler_charter (t : List Char) : Bool :=
  splits_any t (fun p base =>
    slash_pre_ok p &&
      (base == "cc".toList || base == "c++".toList ||
        splits_any base (fun pre core =>
          (pre.isEmpty || ends_with '-' pre) &&
            (core.take 3 == "gcc".toList || core.take 3 == "g++".toList) &&
            (core.drop 3 == [] || claim_version_ok (core.drop 3))) ||
        (base.take 5 == "clang".toList &&
          (base.drop 5 == [] || base.drop 5 == ['+', '+'] ||
            claim_version_ok (base.drop 5) ||
            ((base.drop 5).take 2 == ['+', '+'] &&
              claim_version_ok ((base.drop 5).drop 2)))) ||
        base == "llvm-gcc".toList || base == "llvm-g++".toList))

/-- The raw command field of a trace record: every token followed by one
unit separator (the trailing separator after the final token). -/
def encode_command (toks : List (List Char)) : List Char :=
  toks.foldr (fun t acc => t ++ US :: acc) []

/-- A concrete classifier instance for the end-to-end example:
`cc -c a.c -o a.o` is a compile action with the single source operand
`a.c`; everything else is a link. -/
def demo_classify (argv : List String) : Action × List String :=
  if argv = ["cc", "-c", "a.c", "-o", "a.o"] then (Action.Compile, ["a.c"])
  else (Action.Link, [])

theorem emp_rmatch (x : List Char) : Regex.emp.rmatch x = false := by
  induction x <;> simp_all [Regex.rmatch, Regex.nullable, Regex.deriv]

theorem eps_rmatch_iff (x : List Char) : Regex.eps.rmatch x ↔ x = [] := by
  cases x <;> simp [Regex.rmatch, Regex.nullable, Regex.deriv, emp_rmatch]

theorem cls_rmatch_iff (p : Char → Bool) (x : List Char) :
    (Regex.cls p).rmatch x ↔ ∃ c, x = [c] ∧ p c = true := by
  cases x with
  | nil => simp [Regex.rmatch, Regex.nullable]
  | cons c s =>
    have hderiv : (Regex.cls p).deriv c = if p c then Regex.eps else Regex.emp := rfl
    simp only [Regex.rmatch, hderiv]
    by_cases h : p c = true
    · rw [if_pos h, eps_rmatch_iff]
      constructor
      · rintro rfl
        exact ⟨c, rfl, h⟩
      · rintro ⟨d, hd, _⟩
        injection hd with h1 h2
    · rw [if_neg h, emp_rmatch]
      constructor
      · intro hf
        simp at hf
      · rintro ⟨d, hd, hpd⟩
        injection hd with h1 h2
        subst h1
        exact absurd hpd h

theorem plus_rmatch_iff (r s : Regex) (x : List Char) :
    (Regex.plus r s).rmatch x ↔ r.rmatch x ∨ s.rmatch x := by
  induction x generalizing r s with
  | nil => simp [Regex.rmatch, Regex.nullable]
  | cons c t ih => simpa [Regex.rmatch, Regex.deriv] using ih (r.deriv c) (s.deriv c)

theorem comp_rmatch_iff (r s : Regex) (x : List Char) :
    (Regex.comp r s).rmatch x ↔
      ∃ t u, x = t ++ u ∧ r.rmatch t ∧ s.rmatch u := by
  induction x generalizing r s with
  | nil =>
    simp only [Regex.rmatch, Regex.nullable, Bool.and_eq_true]
    constructor
    · rintro ⟨h1, h2⟩
      exact ⟨[], [], rfl, h1, h2⟩
    · rintro ⟨t, u, htu, h1, h2⟩
      rcases List.append_eq_nil.mp htu.symm with ⟨rfl, rfl⟩
      exact ⟨h1, h2⟩
  | cons c x ih =>
    simp only [Regex.rmatch, Regex.deriv]
    by_cases hn : r.nullable
    · rw [hn]
      simp only [if_true, plus_rmatch_iff, ih]
      constructor
      · rintro (⟨t, u, htu, h1, h2⟩ | h)
        · exact ⟨c :: t, u, by simp [htu], h1, h2⟩
        · exact ⟨[], c :: x, rfl, hn, h⟩
      · rintro ⟨t, u, htu, h1, h2⟩
        cases t with
        | nil =>
          right
          simp only [List.nil_append] at htu
          subst htu
          exact h2
        | cons b t =>
          left
          injection htu with hb ht
          subst hb
          exact ⟨t, u, ht, h1, h2⟩
    · simp only [Bool.not_eq_true] at hn
      rw [hn]
      simp only [Bool.false_eq_true, if_false, ih]
      constructor
      · rintro ⟨t, u, htu, h1, h2⟩
        exact ⟨c :: t, u, by simp [htu], h1, h2⟩
      · rintro ⟨t, u, htu, h1, h2⟩
        cases t with
        | nil =>
          simp only [Regex.rmatch] at h1
          rw [hn] at h1
          exact absurd h1 (by simp)
        | cons b t =>
          injection htu with hb ht
          subst hb
          exact ⟨t, u, ht, h1, h2⟩

theorem star_rmatch_iff (r : Regex) :
    ∀ x : List Char, (Regex.star r).rmatch x ↔
      ∃ S : List (List Char), x = S.flatten ∧ ∀ t ∈ S, t ≠ [] ∧ r.rmatch t :=
  fun x => by
    have IH := fun u (_ : u.length < x.length) => star_rmatch_iff r u
    constructor
    · cases x with
      | nil => intro _; exact ⟨[], by simp⟩
      | cons c x =>
        simp only [Regex.rmatch, Regex.deriv, comp_rmatch_iff]
        rintro ⟨t, u, htu, h1, h2⟩
        have hu : u.length < (c :: x).length := by
          simp [htu, List.length_append]
          omega
        rw [IH u hu] at h2
        rcases h2 with ⟨S, rfl, hS⟩
        refine ⟨(c :: t) :: S, by simp [htu], ?_⟩
        intro t' ht'
        rcases List.mem_cons.mp ht' with rfl | ht'
        · exact ⟨by simp, by simpa [Regex.rmatch] using h1⟩
        · exact hS t' ht'
    · rintro ⟨S, rfl, hS⟩
      cases S with
      | nil => simp [Regex.rmatch, Regex.nullable]
      | cons t S =>
        rcases hS t (by simp) with ⟨hne, hm⟩
        cases t with
        | nil => exact absurd rfl hne
        | cons c t =>
          simp only [List.flatten_cons, List.cons_append, Regex.rmatch,
            Regex.deriv, comp_rmatch_iff]
          refine ⟨t, S.flatten, rfl, by simpa [Regex.rmatch] using hm, ?_⟩
          have hlen : (S.flatten).length < (((c :: t) :: S).flatten).length := by
            simp [List.length_append]
            omega
          rw [IH S.flatten hlen]
          exact ⟨S, rfl, fun u hu => hS u (by simp [hu])⟩
  termination_by x => x.length

theorem mergeAux_cons_missing {fs : String → Bool} {st : List String}
    {e : CompilationEntry} (l : List CompilationEntry) (h : fs e.file = false) :
    mergeAux fs st (e :: l) = mergeAux fs st l := by
  simp [mergeAux, duplicate, h]

theorem mergeAux_cons_dup {fs : String → Bool} {st : List String}
    {e : CompilationEntry} (l : List CompilationEntry) (h : fs e.file = true)
    (hd : hash_cdb e ∈ st) :
    mergeAux fs st (e :: l) = mergeAux fs st l := by
  simp [mergeAux, duplicate, h, hd]

theorem mergeAux_cons_keep {fs : String → Bool} {st : List String}
    {e : CompilationEntry} (l : List CompilationEntry) (h : fs e.file = true)
    (hd : hash_cdb e ∉ st) :
    mergeAux fs st (e :: l) =
      ((e :: (mergeAux fs (hash_cdb e :: st) l).1),
        (mergeAux fs (hash_cdb e :: st) l).2) := by
  simp [mergeAux, duplicate, h, hd]

theorem mergeAux_append (fs : String → Bool) (st : List String)
    (a b : List CompilationEntry) :
    mergeAux fs st (a ++ b) =
      ((mergeAux fs st a).1 ++ (mergeAux fs (mergeAux fs st a).2 b).1,
        (mergeAux fs (mergeAux fs st a).2 b).2) := by
  induction a generalizing st with
  | nil => simp [mergeAux]
  | cons e l ih =>
    by_cases h : fs e.file = true
    · by_cases hd : hash_cdb e ∈ st
      · rw [List.cons_append, mergeAux_cons_dup _ h hd, mergeAux_cons_dup _ h hd, ih]
      · rw [List.cons_append, mergeAux_cons_keep _ h hd, mergeAux_cons_keep _ h hd, ih]
        simp
    · have h' : fs e.file = false := by simpa using h
      rw [List.cons_append, mergeAux_cons_missing _ h', mergeAux_cons_missing _ h', ih]

theorem mem_mergeAux (fs : String → Bool) (st : List String)
    (l : List CompilationEntry) :
    ∀ e ∈ (mergeAux fs st l).1, fs e.file = true ∧ hash_cdb e ∉ st := by
  induction l generalizing st with
  | nil => simp [mergeAux]
  | cons x l ih =>
    by_cases h : fs x.file = true
    · by_cases hd : hash_cdb x ∈ st
      · rw [mergeAux_cons_dup _ h hd]
        exact ih st
      · rw [mergeAux_cons_keep _ h hd]
        intro e he
        rcases List.mem_cons.mp he with rfl | he
        · exact ⟨h, hd⟩
        · have hm := ih (hash_cdb x :: st) e he
          exact ⟨hm.1, fun hmem => hm.2 (List.mem_cons_of_mem _ hmem)⟩
    · have h' : fs x.file = false := by simpa using h
      rw [mergeAux_cons_missing _ h']
      exact ih st

theorem mergeAux_hash_nodup (fs : String → Bool) (st : List String)
    (l : List CompilationEntry) :
    (((mergeAux fs st l).1).map hash_cdb).Nodup := by
  induction l generalizing st with
  | nil => simp [mergeAux]
  | cons x l ih =>
    by_cases h : fs x.file = true
    · by_cases hd : hash_cdb x ∈ st
      · rw [mergeAux_cons_dup _ h hd]
        exact ih st
      · rw [mergeAux_cons_keep _ h hd]
        simp only [List.map_cons, List.nodup_cons]
        refine ⟨?_, ih _⟩
        intro hmem
        rcases List.mem_map.mp hmem with ⟨e, he, heq⟩
        exact (mem_mergeAux fs _ l e he).2 (heq ▸ List.mem_cons_self _ _)
    · have h' : fs x.file = false := by simpa using h
      rw [mergeAux_cons_missing _ h']
      exact ih st

theorem mem_mergeAux_state (fs : String → Bool) (st : List String)
    (l : List CompilationEntry) (x : String) :
    x ∈ (mergeAux fs st l).2 ↔
      x ∈ st ∨ ∃ e ∈ (mergeAux fs st l).1, hash_cdb e = x := by
  induction l generalizing st with
  | nil => simp [mergeAux]
  | cons y l ih =>
    by_cases h : fs y.file = true
    · by_cases hd : hash_cdb y ∈ st
      · rw [mergeAux_cons_dup _ h hd]
        exact ih st
      · rw [mergeAux_cons_keep _ h hd]
        dsimp only
        rw [ih (hash_cdb y :: st)]
        constructor
        · rintro (hx | ⟨e, he, rfl⟩)
          · rcases List.mem_cons.mp hx with rfl | hx
            · exact Or.inr ⟨y, List.mem_cons_self _ _, rfl⟩
            · exact Or.inl hx
          · exact Or.inr ⟨e, List.mem_cons_of_mem _ he, rfl⟩
        · rintro (hx | ⟨e, he, rfl⟩)
          · exact Or.inl (List.mem_cons_of_mem _ hx)
          · rcases List.mem_cons.mp he with rfl | he
            · exact Or.inl (List.mem_cons_self _ _)
            · exact Or.inr ⟨e, he, rfl⟩
    · have h' : fs y.file = false := by simpa using h
      rw [mergeAux_cons_missing _ h']
      exact ih st

theorem hash_mem_state (fs : String → Bool) (st : List String)
    (l : List CompilationEntry) :
    ∀ e ∈ l, fs e.file = true → hash_cdb e ∈ (mergeAux fs st l).2 := by
  induction l generalizing st with
  | nil => simp
  | cons y l ih =>
    intro e he hfs
    rcases List.mem_cons.mp he with rfl | he
    · by_cases hd : hash_cdb e ∈ st
      · rw [mergeAux_cons_dup _ hfs hd]
        exact (mem_mergeAux_state fs st l _).mpr (Or.inl hd)
      · rw [mergeAux_cons_keep _ hfs hd]
        dsimp only
        exact (mem_mergeAux_state fs _ l _).mpr (Or.inl (List.mem_cons_self _ _))
    · by_cases h : fs y.file = true
      · by_cases hd : hash_cdb y ∈ st
        · rw [mergeAux_cons_dup _ h hd]
          exact ih st e he hfs
        · rw [mergeAux_cons_keep _ h hd]
          dsimp only
          exact ih _ e he hfs
      · have h' : fs y.file = false := by simpa using h
        rw [mergeAux_cons_missing _ h']
        exact ih st e he hfs

theorem mergeAux_all_kept (fs : String → Bool) (st : List String)
    (l : List CompilationEntry)
    (hex : ∀ e ∈ l, fs e.file = true) (hst : ∀ e ∈ l, hash_cdb e ∉ st)
    (hnd : (l.map hash_cdb).Nodup) :
    (mergeAux fs st l).1 = l := by
  induction l generalizing st with
  | nil => simp [mergeAux]
  | cons y l ih =>
    rw [mergeAux_cons_keep _ (hex y (List.mem_cons_self _ _))
      (hst y (List.mem_cons_self _ _))]
    dsimp only
    simp only [List.map_cons, List.nodup_cons] at hnd
    congr 1
    apply ih
    · exact fun e he => hex e (List.mem_cons_of_mem _ he)
    · intro e he hmem
      rcases List.mem_cons.mp hmem with heq | hmem
      · exact hnd.1 (heq ▸ List.mem_map_of_mem hash_cdb he)
      · exact hst e (List.mem_cons_of_mem _ he) hmem
    · exact hnd.2

theorem mergeAux_all_dropped (fs : String → Bool) (st : List String)
    (l : List CompilationEntry)
    (h : ∀ e ∈ l, fs e.file = false ∨ hash_cdb e ∈ st) :
    mergeAux fs st l = ([], st) := by
  induction l with
  | nil => simp [mergeAux]
  | cons y l ih =>
    have step : mergeAux fs st (y :: l) = mergeAux fs st l := by
      rcases h y (List.mem_cons_self _ _) with hf | hd
      · exact mergeAux_cons_missing _ hf
      · by_cases hfs : fs y.file = true
        · exact mergeAux_cons_dup _ hfs hd
        · exact mergeAux_cons_missing _ (by simpa using hfs)
    rw [step]
    exact ih (fun e he => h e (List.mem_cons_of_mem _ he))

/-- Claim C4: merging is idempotent over an unchanged filesystem. -/
theorem merge_idem_aux (fs : String → Bool) (D C : List CompilationEntry) :
    merge fs (merge fs D C) C = merge fs D C := by
  have h1 : (mergeAux fs [] (mergeAux fs [] (D ++ C)).1).1 =
      (mergeAux fs [] (D ++ C)).1 := by
    apply mergeAux_all_kept
    · exact fun e he => (mem_mergeAux fs [] _ e he).1
    · simp
    · exact mergeAux_hash_nodup fs [] _
  have h2 : mergeAux fs (mergeAux fs [] (mergeAux fs [] (D ++ C)).1).2 C =
      ([], (mergeAux fs [] (mergeAux fs [] (D ++ C)).1).2) := by
    apply mergeAux_all_dropped
    intro c hc
    by_cases hf : fs c.file = true
    · right
      have hs : hash_cdb c ∈ (mergeAux fs [] (D ++ C)).2 :=
        hash_mem_state fs [] _ c (List.mem_append_right _ hc) hf
      rw [mem_mergeAux_state] at hs
      rcases hs with hs | ⟨e, he, heq⟩
      · exact absurd hs (List.not_mem_nil _)
      · rw [mem_mergeAux_state]
        exact Or.inr ⟨e, h1.symm ▸ he, heq⟩
    · exact Or.inl (by simpa using hf)
  rw [merge, merge, mergeAux_append, h1, h2]
  simp

theorem mergeAux_skip (fs : String → Bool) (st : List String)
    (l1 l2 : List CompilationEntry) (e : CompilationEntry)
    (h : fs e.file = false) :
    mergeAux fs st (l1 ++ e :: l2) = mergeAux fs st (l1 ++ l2) := by
  rw [mergeAux_append, mergeAux_append, mergeAux_cons_missing _ h]

theorem mergeAux_eq_first_seen (fs : String → Bool)
    (l : List CompilationEntry) :
    ∀ (st : List String) (prev : List CompilationEntry),
      (∀ x, x ∈ st ↔ ∃ p ∈ prev, fs p.file = true ∧ hash_cdb p = x) →
      (mergeAux fs st l).1 = first_seen_spec fs prev l := by
  induction l with
  | nil => intro st prev _; simp [mergeAux, first_seen_spec]
  | cons e rest ih =>
    intro st prev hinv
    have hguard : (hash_cdb e ∈ st) ↔
        (prev.any (fun p => fs p.file && (hash_cdb p == hash_cdb e)) = true) := by
      rw [hinv]
      simp only [List.any_eq_true, Bool.and_eq_true, beq_iff_eq]
    by_cases hf : fs e.file = true
    · by_cases hd : hash_cdb e ∈ st
      · rw [mergeAux_cons_dup _ hf hd, first_seen_spec, if_neg]
        · apply ih st (prev ++ [e])
          intro x
          rw [hinv]
          constructor
          · rintro ⟨p, hp, hfp, rfl⟩
            exact ⟨p, List.mem_append_left _ hp, hfp, rfl⟩
          · rintro ⟨p, hp, hfp, rfl⟩
            rcases List.mem_append.mp hp with hp | hp
            · exact ⟨p, hp, hfp, rfl⟩
            · rcases List.mem_singleton.mp hp with rfl
              exact (hinv _).mp hd
        · rw [hguard.mp hd]
          simp [hf]
      · rw [mergeAux_cons_keep _ hf hd, first_seen_spec, if_pos]
        · dsimp only
          congr 1
          apply ih (hash_cdb e :: st) (prev ++ [e])
          intro x
          constructor
          · intro hx
            rcases List.mem_cons.mp hx with rfl | hx
            · exact ⟨e, List.mem_append_right _ (List.mem_singleton.mpr rfl), hf, rfl⟩
            · rcases (hinv x).mp hx with ⟨p, hp, hfp, rfl⟩
              exact ⟨p, List.mem_append_left _ hp, hfp, rfl⟩
          · rintro ⟨p, hp, hfp, rfl⟩
            rcases List.mem_append.mp hp with hp | hp
            · exact List.mem_cons_of_mem _ ((hinv _).mpr ⟨p, hp, hfp, rfl⟩)
            · rcases List.mem_singleton.mp hp with rfl
              exact List.mem_cons_self _ _
        · have : prev.any (fun p => fs p.file && (hash_cdb p == hash_cdb e)) = false := by
            rcases hh : prev.any (fun p => fs p.file && (hash_cdb p == hash_cdb e)) with _ | _
            · rfl
            · exact absurd (hguard.mpr hh) hd
          simp [hf, this]
    · have hf' : fs e.file = false := by simpa using hf
      rw [mergeAux_cons_missing _ hf', first_seen_spec, if_neg]
      · apply ih st (prev ++ [e])
        intro x
        rw [hinv]
        constructor
        · rintro ⟨p, hp, hfp, rfl⟩
          exact ⟨p, List.mem_append_left _ hp, hfp, rfl⟩
        · rintro ⟨p, hp, hfp, rfl⟩
          rcases List.mem_append.mp hp with hp | hp
          · exact ⟨p, hp, hfp, rfl⟩
          · rcases List.mem_singleton.mp hp with rfl
            exact absurd hfp (by simp [hf'])
      · simp [hf']

theorem merge_eq_first_seen_aux (fs : String → Bool)
    (old new : List CompilationEntry) :
    merge fs old new = first_seen_spec fs [] (old ++ new) := by
  apply mergeAux_eq_first_seen
  simp

theorem chr_rmatch_iff (c : Char) (x : List Char) :
    (chr c).rmatch x = true ↔ x = [c] := by
  rw [chr, cls_rmatch_iff]
  constructor
  · rintro ⟨d, rfl, hd⟩
    rw [beq_iff_eq] at hd
    rw [hd]
  · rintro rfl
    exact ⟨c, rfl, beq_self_eq_true c⟩

theorem strR_rmatch_iff (cs x : List Char) :
    (strR cs).rmatch x = true ↔ x = cs := by
  induction cs generalizing x with
  | nil => rw [strR, eps_rmatch_iff]
  | cons c cs ih =>
    rw [strR, comp_rmatch_iff]
    constructor
    · rintro ⟨t, u, rfl, ht, hu⟩
      rw [chr_rmatch_iff] at ht
      rw [ih] at hu
      rw [ht, hu]
      rfl
    · rintro rfl
      exact ⟨[c], cs, rfl, (chr_rmatch_iff c _).mpr rfl, (ih cs).mpr rfl⟩

theorem opt_rmatch_iff (r : Regex) (x : List Char) :
    (opt r).rmatch x = true ↔ r.rmatch x = true ∨ x = [] := by
  rw [opt, plus_rmatch_iff, eps_rmatch_iff]

theorem star_cls_rmatch_iff (p : Char → Bool) (x : List Char) :
    (Regex.star (Regex.cls p)).rmatch x = true ↔ ∀ c ∈ x, p c = true := by
  rw [star_rmatch_iff]
  constructor
  · rintro ⟨S, rfl, hS⟩ c hc
    rcases List.mem_flatten.mp hc with ⟨t, ht, hct⟩
    rcases hS t ht with ⟨_, hm⟩
    rcases (cls_rmatch_iff p t).mp hm with ⟨d, rfl, hd⟩
    rcases List.mem_singleton.mp hct with rfl
    exact hd
  · induction x with
    | nil => exact fun _ => ⟨[], rfl, by simp⟩
    | cons c rest ih =>
      intro h
      rcases ih (fun d hd => h d (List.mem_cons_of_mem _ hd)) with ⟨S, hflat, hS⟩
      refine ⟨[c] :: S, by simp [hflat], ?_⟩
      intro t ht
      rcases List.mem_cons.mp ht with rfl | ht
      · exact ⟨by simp, (cls_rmatch_iff p _).mpr
          ⟨c, rfl, h c (List.mem_cons_self _ _)⟩⟩
      · exact hS t ht

theorem mem_of_getLast?_eq (l : List Char) (a : Char) (h : l.getLast? = some a) :
    a ∈ l := by
  rcases List.mem_getLast?_eq_getLast (show a ∈ l.getLast? by simp [h]) with ⟨hne, rfl⟩
  exact List.getLast_mem hne

theorem sepPre_chunk_iff (c : Char) (t : List Char) :
    (Regex.comp (Regex.star (notCls [c])) (chr c)).rmatch t = true ↔
      ∃ y, t = y ++ [c] ∧ ∀ d ∈ y, d ≠ c := by
  rw [comp_rmatch_iff]
  constructor
  · rintro ⟨y, u, rfl, hy, hu⟩
    rw [chr_rmatch_iff] at hu
    subst hu
    rw [notCls, star_cls_rmatch_iff] at hy
    refine ⟨y, rfl, fun d hd => ?_⟩
    have := hy d hd
    simp only [List.contains_cons, Bool.not_eq_true', Bool.or_eq_false_iff] at this
    intro hdc
    subst hdc
    simp at this
  · rintro ⟨y, rfl, hy⟩
    refine ⟨y, [c], rfl, ?_, (chr_rmatch_iff c _).mpr rfl⟩
    rw [notCls, star_cls_rmatch_iff]
    intro d hd
    simp only [List.contains_cons, Bool.not_eq_true', Bool.or_eq_false_iff]
    constructor
    · exact beq_eq_false_iff_ne.mpr (hy d hd)
    · rfl

theorem dropWhile_head_not (q : Char → Bool) (x : List Char) (d : Char)
    (y : List Char) (h : x.dropWhile q = d :: y) : q d = false := by
  induction x with
  | nil => simp [List.dropWhile] at h
  | cons a l ih =>
    by_cases ha : q a = true
    · rw [List.dropWhile_cons_of_pos ha] at h
      exact ih h
    · rw [List.dropWhile_cons_of_neg ha] at h
      injection h with h1 _
      subst h1
      simpa using ha

theorem sepPre_of_ends (c : Char) :
    ∀ (n : Nat) (x : List Char), x.length ≤ n → x.getLast? = some c →
      (sepPre c).rmatch x = true := by
  intro n
  induction n with
  | zero =>
    intro x hlen hlast
    rcases List.length_eq_zero.mp (Nat.le_zero.mp hlen) with rfl
    simp at hlast
  | succ n ih =>
    intro x hlen hlast
    have hmem : c ∈ x := mem_of_getLast?_eq x c hlast
    have hdw : x.dropWhile (fun d => d != c) ≠ [] := by
      intro hnil
      have := (List.dropWhile_eq_nil_iff).mp hnil c hmem
      simp at this
    rcases hd : x.dropWhile (fun d => d != c) with _ | ⟨d, y⟩
    · exact absurd hd hdw
    have hdc : d = c := by
      have := dropWhile_head_not (fun d => d != c) x d y hd
      simpa using this
    rw [hdc] at hd
    have hx : x = x.takeWhile (fun d => d != c) ++ c :: y := by
      conv_lhs => rw [(List.takeWhile_append_dropWhile (fun d => d != c) x).symm]
      rw [hd]
    have htw : ∀ d ∈ x.takeWhile (fun d => d != c), d ≠ c := by
      intro d hdm
      have := List.mem_takeWhile_imp hdm
      simpa using this
    have hchunk : (Regex.comp (Regex.star (notCls [c])) (chr c)).rmatch
        (x.takeWhile (fun d => d != c) ++ [c]) = true :=
      (sepPre_chunk_iff c _).mpr ⟨_, rfl, htw⟩
    rcases hy : y with _ | ⟨e, z⟩
    · subst hy
      rw [hx, sepPre, star_rmatch_iff]
      refine ⟨[x.takeWhile (fun d => d != c) ++ [c]], by simp, ?_⟩
      intro t ht
      rcases List.mem_singleton.mp ht with rfl
      exact ⟨by simp, hchunk⟩
    · have hyne : y ≠ [] := by rw [hy]; exact List.cons_ne_nil e z
      have hylast : y.getLast? = some c := by
        have h1 : x.getLast? = (c :: y).getLast? := by
          conv_lhs => rw [hx]
          exact List.getLast?_append_of_ne_nil _ (List.cons_ne_nil c y)
        rw [hy] at h1 ⊢
        rw [List.getLast?_cons_cons] at h1
        rw [hlast] at h1
        exact h1.symm
      have hylen : y.length ≤ n := by
        have : x.length = (x.takeWhile (fun d => d != c)).length + (y.length + 1) := by
          conv_lhs => rw [hx]
          simp [List.length_append]
        omega
      have hrec := ih y hylen hylast
      rw [sepPre, star_rmatch_iff] at hrec
      rcases hrec with ⟨S, hflat, hS⟩
      rw [hx, hflat, sepPre, star_rmatch_iff]
      refine ⟨(x.takeWhile (fun d => d != c) ++ [c]) :: S, by simp, ?_⟩
      intro t ht
      rcases List.mem_cons.mp ht with rfl | ht
      · exact ⟨by simp, hchunk⟩
      · exact hS t ht

/-- The prefix regex `([^x]*x)*` accepts exactly the empty string and the
strings ending in `x`. -/
theorem sepPre_rmatch_iff (c : Char) (x : List Char) :
    (sepPre c).rmatch x = true ↔ x = [] ∨ x.getLast? = some c := by
  constructor
  · intro h
    rw [sepPre, star_rmatch_iff] at h
    rcases h with ⟨S, rfl, hS⟩
    induction S with
    | nil => exact Or.inl rfl
    | cons t S ihS =>
      rcases hS t (List.mem_cons_self _ _) with ⟨htne, htm⟩
      rcases (sepPre_chunk_iff c t).mp htm with ⟨yt, rfl, _⟩
      rcases ihS (fun u hu => hS u (List.mem_cons_of_mem _ hu)) with hSnil | hSend
      · right
        rw [List.flatten_cons, hSnil, List.append_nil]
        exact List.getLast?_concat _
      · right
        rw [List.flatten_cons]
        rw [List.getLast?_append_of_ne_nil _ (by
          intro hf
          rw [hf] at hSend
          simp at hSend)]
        exact hSend
  · rintro (rfl | hend)
    · rw [sepPre, star_rmatch_iff]
      exact ⟨[], rfl, by simp⟩
    · exact sepPre_of_ends c x.length x (Nat.le_refl _) hend

theorem splits_any_iff (t : List Char) (f : List Char → List Char → Bool) :
    splits_any t f = true ↔ ∃ p b, t = p ++ b ∧ f p b = true := by
  rw [splits_any, List.any_eq_true]
  constructor
  · rintro ⟨i, _, hf⟩
    exact ⟨t.take i, t.drop i, (List.take_append_drop i t).symm, hf⟩
  · rintro ⟨p, b, rfl, hf⟩
    refine ⟨p.length, ?_, ?_⟩
    · rw [List.mem_range, List.length_append]
      omega
    · rw [List.take_left, List.drop_left]
      exact hf

theorem gnuVer_rmatch_iff (v : List Char) :
    gnuVer.rmatch v = true ↔ gnu_version_ok v = true := by
  constructor
  · intro h
    rw [gnuVer, comp_rmatch_iff] at h
    rcases h with ⟨t, u, rfl, ht, hu⟩
    rw [chr_rmatch_iff] at ht
    subst ht
    rw [comp_rmatch_iff] at hu
    rcases hu with ⟨t2, u2, rfl, ht2, hu2⟩
    rw [inCls, cls_rmatch_iff] at ht2
    rcases ht2 with ⟨a, rfl, ha⟩
    rw [comp_rmatch_iff] at hu2
    rcases hu2 with ⟨t3, u3, rfl, ht3, hu3⟩
    rw [dotAny, cls_rmatch_iff] at ht3
    rcases ht3 with ⟨b, rfl, hb⟩
    rw [digitCls, cls_rmatch_iff] at hu3
    rcases hu3 with ⟨c2, rfl, hc⟩
    simp only [List.cons_append, List.nil_append, List.singleton_append]
    simp only [gnu_version_ok, is_digit, Bool.and_eq_true, Bool.or_eq_true]
    simp only [List.contains_cons, List.contains_nil, Bool.or_eq_true,
      beq_iff_eq, Bool.or_eq_false_iff] at ha
    refine ⟨⟨⟨by simp, ?_⟩, by simpa using hb⟩, by simpa using hc⟩
    rcases ha with (rfl | rfl | rfl | rfl | h0)
    · simp
    · simp
    · simp
    · simp
    · simp at h0
  · intro h
    rcases v with _ | ⟨d, _ | ⟨a, _ | ⟨b, _ | ⟨c2, _ | ⟨e, rest⟩⟩⟩⟩⟩ <;>
      simp only [gnu_version_ok] at h
    · exact absurd h (by simp)
    · exact absurd h (by simp)
    · exact absurd h (by simp)
    · exact absurd h (by simp)
    · simp only [is_digit, Bool.and_eq_true, Bool.or_eq_true, beq_iff_eq,
        bne_iff_ne] at h
      rcases h with ⟨⟨⟨rfl, ha⟩, hb⟩, hc⟩
      rw [gnuVer, comp_rmatch_iff]
      refine ⟨['-'], [a, b, c2], rfl, (chr_rmatch_iff _ _).mpr rfl, ?_⟩
      rw [comp_rmatch_iff]
      refine ⟨[a], [b, c2], rfl, ?_, ?_⟩
      · rw [inCls, cls_rmatch_iff]
        refine ⟨a, rfl, ?_⟩
        rcases ha with ((rfl | rfl) | rfl) | rfl <;> rfl
      · rw [comp_rmatch_iff]
        refine ⟨[b], [c2], rfl, ?_, ?_⟩
        · rw [dotAny, cls_rmatch_iff]
          exact ⟨b, rfl, by simpa using hb⟩
        · rw [digitCls, cls_rmatch_iff]
          exact ⟨c2, rfl, by simpa [is_digit] using hc⟩
    · exact absurd h (by simp)

theorem clangVer_rmatch_iff (v : List Char) :
    clangVer.rmatch v = true ↔ clang_version_ok v = true := by
  constructor
  · intro h
    rw [clangVer, comp_rmatch_iff] at h
    rcases h with ⟨t, u, rfl, ht, hu⟩
    rw [chr_rmatch_iff] at ht
    subst ht
    rw [comp_rmatch_iff] at hu
    rcases hu with ⟨t2, u2, rfl, ht2, hu2⟩
    rw [inCls, cls_rmatch_iff] at ht2
    rcases ht2 with ⟨a, rfl, ha⟩
    rw [comp_rmatch_iff] at hu2
    rcases hu2 with ⟨t3, u3, rfl, ht3, hu3⟩
    rw [dotAny, cls_rmatch_iff] at ht3
    rcases ht3 with ⟨b, rfl, hb⟩
    rw [digitCls, cls_rmatch_iff] at hu3
    rcases hu3 with ⟨c2, rfl, hc⟩
    simp only [List.cons_append, List.nil_append, List.singleton_append]
    simp only [clang_version_ok, is_digit, Bool.and_eq_true, Bool.or_eq_true]
    simp only [List.contains_cons, List.contains_nil, Bool.or_eq_true,
      beq_iff_eq, Bool.or_eq_false_iff] at ha
    refine ⟨⟨⟨by simp, ?_⟩, by simpa using hb⟩, by simpa using hc⟩
    rcases ha with (rfl | rfl | h0)
    · simp
    · simp
    · simp at h0
  · intro h
    rcases v with _ | ⟨d, _ | ⟨a, _ | ⟨b, _ | ⟨c2, _ | ⟨e, rest⟩⟩⟩⟩⟩ <;>
      simp only [clang_version_ok] at h
    · exact absurd h (by simp)
    · exact absurd h (by simp)
    · exact absurd h (by simp)
    · exact absurd h (by simp)
    · simp only [is_digit, Bool.and_eq_true, Bool.or_eq_true, beq_iff_eq,
        bne_iff_ne] at h
      rcases h with ⟨⟨⟨rfl, ha⟩, hb⟩, hc⟩
      rw [clangVer, comp_rmatch_iff]
      refine ⟨['-'], [a, b, c2], rfl, (chr_rmatch_iff _ _).mpr rfl, ?_⟩
      rw [comp_rmatch_iff]
      refine ⟨[a], [b, c2], rfl, ?_, ?_⟩
      · rw [inCls, cls_rmatch_iff]
        refine ⟨a, rfl, ?_⟩
        rcases ha with rfl | rfl <;> rfl
      · rw [comp_rmatch_iff]
        refine ⟨[b], [c2], rfl, ?_, ?_⟩
        · rw [dotAny, cls_rmatch_iff]
          exact ⟨b, rfl, by simpa using hb⟩
        · rw [digitCls, cls_rmatch_iff]
          exact ⟨c2, rfl, by simpa [is_digit] using hc⟩
    · exact absurd h (by simp)

theorem pat_cc_rmatch_iff (t : List Char) :
    pat_cc.rmatch t = true ↔
      ∃ p b, t = p ++ b ∧ (p = [] ∨ p.getLast? = some '/') ∧
        (b = ['c', 'c'] ∨ b = ['c', '+', '+']) := by
  rw [pat_cc, comp_rmatch_iff]
  constructor
  · rintro ⟨p, b, rfl, hp, hb⟩
    refine ⟨p, b, rfl, (sepPre_rmatch_iff _ _).mp hp, ?_⟩
    rw [comp_rmatch_iff] at hb
    rcases hb with ⟨u, v, rfl, hu, hv⟩
    rw [chr_rmatch_iff] at hu
    subst hu
    rw [plus_rmatch_iff] at hv
    rcases hv with hv | hv
    · rw [chr_rmatch_iff] at hv
      subst hv
      exact Or.inl rfl
    · rw [strR_rmatch_iff] at hv
      subst hv
      exact Or.inr rfl
  · rintro ⟨p, b, rfl, hp, hb⟩
    refine ⟨p, b, rfl, (sepPre_rmatch_iff _ _).mpr hp, ?_⟩
    rw [comp_rmatch_iff]
    rcases hb with rfl | rfl
    · exact ⟨['c'], ['c'], rfl, (chr_rmatch_iff _ _).mpr rfl,
        (plus_rmatch_iff _ _ _).mpr (Or.inl ((chr_rmatch_iff _ _).mpr rfl))⟩
    · exact ⟨['c'], ['+', '+'], rfl, (chr_rmatch_iff _ _).mpr rfl,
        (plus_rmatch_iff _ _ _).mpr (Or.inr ((strR_rmatch_iff _ _).mpr rfl))⟩

theorem pat_llvm_rmatch_iff (t : List Char) :
    pat_llvm.rmatch t = true ↔
      ∃ p b, t = p ++ b ∧ (p = [] ∨ p.getLast? = some '/') ∧
        (b = ['l', 'l', 'v', 'm', '-', 'g', 'c', 'c'] ∨
          b = ['l', 'l', 'v', 'm', '-', 'g', '+', '+']) := by
  rw [pat_llvm, comp_rmatch_iff]
  constructor
  · rintro ⟨p, b, rfl, hp, hb⟩
    refine ⟨p, b, rfl, (sepPre_rmatch_iff _ _).mp hp, ?_⟩
    rw [comp_rmatch_iff] at hb
    rcases hb with ⟨u, v, rfl, hu, hv⟩
    rw [strR_rmatch_iff] at hu
    subst hu
    rw [plus_rmatch_iff] at hv
    rcases hv with hv | hv <;> rw [strR_rmatch_iff] at hv <;> subst hv
    · exact Or.inl rfl
    · exact Or.inr rfl
  · rintro ⟨p, b, rfl, hp, hb⟩
    refine ⟨p, b, rfl, (sepPre_rmatch_iff _ _).mpr hp, ?_⟩
    rw [comp_rmatch_iff]
    rcases hb with rfl | rfl
    · exact ⟨['l', 'l', 'v', 'm', '-', 'g'], ['c', 'c'], rfl,
        (strR_rmatch_iff _ _).mpr rfl,
        (plus_rmatch_iff _ _ _).mpr (Or.inl ((strR_rmatch_iff _ _).mpr rfl))⟩
    · exact ⟨['l', 'l', 'v', 'm', '-', 'g'], ['+', '+'], rfl,
        (strR_rmatch_iff _ _).mpr rfl,
        (plus_rmatch_iff _ _ _).mpr (Or.inr ((strR_rmatch_iff _ _).mpr rfl))⟩

theorem mixed_pre_parts (p : List Char) :
    (∃ a b, p = a ++ b ∧ (a = [] ∨ a.getLast? = some '/') ∧
      (b = [] ∨ b.getLast? = some '-')) ↔
      (p = [] ∨ p.getLast? = some '/' ∨ p.getLast? = some '-') := by
  constructor
  · rintro ⟨a, b, rfl, ha, hb⟩
    rcases hb with rfl | hb
    · rw [List.append_nil]
      rcases ha with rfl | ha
      · exact Or.inl rfl
      · exact Or.inr (Or.inl ha)
    · have hbne : b ≠ [] := by rintro rfl; simp at hb
      refine Or.inr (Or.inr ?_)
      rw [List.getLast?_append_of_ne_nil a hbne]
      exact hb
  · rintro (rfl | hp | hp)
    · exact ⟨[], [], rfl, Or.inl rfl, Or.inl rfl⟩
    · exact ⟨p, [], (List.append_nil p).symm, Or.inr hp, Or.inl rfl⟩
    · exact ⟨[], p, rfl, Or.inl rfl, Or.inr hp⟩

theorem pat_gnu_rmatch_iff (t : List Char) :
    pat_gnu.rmatch t = true ↔
      ∃ p b, t = p ++ b ∧
        (p = [] ∨ p.getLast? = some '/' ∨ p.getLast? = some '-') ∧
        ∃ v, (b = ['g', 'c', 'c'] ++ v ∨ b = ['g', '+', '+'] ++ v) ∧
          (v = [] ∨ gnu_version_ok v = true) := by
  rw [pat_gnu, comp_rmatch_iff]
  constructor
  · rintro ⟨a, r1, rfl, ha, hr1⟩
    rw [comp_rmatch_iff] at hr1
    rcases hr1 with ⟨b2, r2, rfl, hb2, hr2⟩
    rw [comp_rmatch_iff] at hr2
    rcases hr2 with ⟨u, w, rfl, hu, hw⟩
    rw [chr_rmatch_iff] at hu
    subst hu
    rw [comp_rmatch_iff] at hw
    rcases hw with ⟨n2, v, rfl, hn2, hv⟩
    rw [plus_rmatch_iff] at hn2
    rw [opt_rmatch_iff, gnuVer_rmatch_iff] at hv
    refine ⟨a ++ b2, ['g'] ++ (n2 ++ v), by simp, ?_, ?_⟩
    · exact (mixed_pre_parts _).mp ⟨a, b2, rfl, (sepPre_rmatch_iff _ _).mp ha,
        (sepPre_rmatch_iff _ _).mp hb2⟩
    · rcases hn2 with hn2 | hn2 <;> rw [strR_rmatch_iff] at hn2 <;> subst hn2
      · exact ⟨v, Or.inl rfl, by tauto⟩
      · exact ⟨v, Or.inr rfl, by tauto⟩
  · rintro ⟨p, b, rfl, hp, v, hb, hv⟩
    rcases (mixed_pre_parts p).mpr hp with ⟨a, b2, rfl, ha, hb2⟩
    refine ⟨a, b2 ++ b, by simp, (sepPre_rmatch_iff _ _).mpr ha, ?_⟩
    rw [comp_rmatch_iff]
    refine ⟨b2, b, rfl, (sepPre_rmatch_iff _ _).mpr hb2, ?_⟩
    rw [comp_rmatch_iff]
    rcases hb with rfl | rfl
    · refine ⟨['g'], ['c', 'c'] ++ v, rfl, (chr_rmatch_iff _ _).mpr rfl, ?_⟩
      rw [comp_rmatch_iff]
      refine ⟨['c', 'c'], v, rfl,
        (plus_rmatch_iff _ _ _).mpr (Or.inl ((strR_rmatch_iff _ _).mpr rfl)), ?_⟩
      rw [opt_rmatch_iff, gnuVer_rmatch_iff]
      tauto
    · refine ⟨['g'], ['+', '+'] ++ v, rfl, (chr_rmatch_iff _ _).mpr rfl, ?_⟩
      rw [comp_rmatch_iff]
      refine ⟨['+', '+'], v, rfl,
        (plus_rmatch_iff _ _ _).mpr (Or.inr ((strR_rmatch_iff _ _).mpr rfl)), ?_⟩
      rw [opt_rmatch_iff, gnuVer_rmatch_iff]
      tauto

theorem pat_clang_rmatch_iff (t : List Char) :
    pat_clang.rmatch t = true ↔
      ∃ p b, t = p ++ b ∧
        (p = [] ∨ p.getLast? = some '/' ∨ p.getLast? = some '-') ∧
        ∃ m v, b = ['c', 'l', 'a', 'n', 'g'] ++ m ++ v ∧
          (m = [] ∨ m = ['+', '+']) ∧
          (v = [] ∨ clang_version_ok v = true) := by
  rw [pat_clang, comp_rmatch_iff]
  constructor
  · rintro ⟨a, r1, rfl, ha, hr1⟩
    rw [comp_rmatch_iff] at hr1
    rcases hr1 with ⟨b2, r2, rfl, hb2, hr2⟩
    rw [comp_rmatch_iff] at hr2
    rcases hr2 with ⟨u, w, rfl, hu, hw⟩
    rw [strR_rmatch_iff] at hu
    subst hu
    rw [comp_rmatch_iff] at hw
    rcases hw with ⟨m, v, rfl, hm, hv⟩
    rw [opt_rmatch_iff, strR_rmatch_iff] at hm
    rw [opt_rmatch_iff, clangVer_rmatch_iff] at hv
    refine ⟨a ++ b2, ['c', 'l', 'a', 'n', 'g'] ++ (m ++ v), by simp, ?_, ?_⟩
    · exact (mixed_pre_parts _).mp ⟨a, b2, rfl, (sepPre_rmatch_iff _ _).mp ha,
        (sepPre_rmatch_iff _ _).mp hb2⟩
    · exact ⟨m, v, by simp, by tauto, by tauto⟩
  · rintro ⟨p, b, rfl, hp, m, v, rfl, hm, hv⟩
    rcases (mixed_pre_parts p).mpr hp with ⟨a, b2, rfl, ha, hb2⟩
    refine ⟨a, b2 ++ (['c', 'l', 'a', 'n', 'g'] ++ m ++ v), by simp,
      (sepPre_rmatch_iff _ _).mpr ha, ?_⟩
    rw [comp_rmatch_iff]
    refine ⟨b2, ['c', 'l', 'a', 'n', 'g'] ++ m ++ v, rfl,
      (sepPre_rmatch_iff _ _).mpr hb2, ?_⟩
    rw [comp_rmatch_iff]
    refine ⟨['c', 'l', 'a', 'n', 'g'], m ++ v, by simp,
      (strR_rmatch_iff _ _).mpr rfl, ?_⟩
    rw [comp_rmatch_iff]
    refine ⟨m, v, rfl, ?_, ?_⟩
    · rw [opt_rmatch_iff, strR_rmatch_iff]
      tauto
    · rw [opt_rmatch_iff, clangVer_rmatch_iff]
      tauto

theorem slash_pre_ok_iff (p : List Char) :
    slash_pre_ok p = true ↔ p = [] ∨ p.getLast? = some '/' := by
  simp [slash_pre_ok, ends_with, List.isEmpty_iff]

theorem mixed_pre_ok_iff (p : List Char) :
    mixed_pre_ok p = true ↔
      p = [] ∨ p.getLast? = some '/' ∨ p.getLast? = some '-' := by
  simp only [mixed_pre_ok, ends_with, Bool.or_eq_true, beq_iff_eq,
    List.isEmpty_iff]
  tauto

theorem gnu_core_ok_iff (b : List Char) :
    gnu_core_ok b = true ↔
      ∃ v, (b = ['g', 'c', 'c'] ++ v ∨ b = ['g', '+', '+'] ++ v) ∧
        (v = [] ∨ gnu_version_ok v = true) := by
  rw [gnu_core_ok]
  simp only [Bool.and_eq_true, Bool.or_eq_true, beq_iff_eq]
  constructor
  · rintro ⟨htake, hdrop⟩
    refine ⟨b.drop 3, ?_, hdrop⟩
    rcases htake with h | h
    · left
      conv_lhs => rw [(List.take_append_drop 3 b).symm]
      rw [h]
    · right
      conv_lhs => rw [(List.take_append_drop 3 b).symm]
      rw [h]
  · rintro ⟨v, hb, hv⟩
    rcases hb with rfl | rfl
    · have hd : (['g', 'c', 'c'] ++ v).drop 3 = v := List.drop_left' rfl
      exact ⟨Or.inl (List.take_left' rfl), by rw [hd]; exact hv⟩
    · have hd : (['g', '+', '+'] ++ v).drop 3 = v := List.drop_left' rfl
      exact ⟨Or.inr (List.take_left' rfl), by rw [hd]; exact hv⟩

theorem clang_tail_ok_iff (r : List Char) :
    clang_tail_ok r = true ↔
      ∃ m v, r = m ++ v ∧ (m = [] ∨ m = ['+', '+']) ∧
        (v = [] ∨ clang_version_ok v = true) := by
  rw [clang_tail_ok]
  simp only [Bool.or_eq_true, Bool.and_eq_true, beq_iff_eq]
  constructor
  · intro h
    rcases h with ((rfl | rfl) | hver) | ⟨htake, hver⟩
    · exact ⟨[], [], rfl, Or.inl rfl, Or.inl rfl⟩
    · exact ⟨['+', '+'], [], by simp, Or.inr rfl, Or.inl rfl⟩
    · exact ⟨[], r, rfl, Or.inl rfl, Or.inr hver⟩
    · refine ⟨['+', '+'], r.drop 2, ?_, Or.inr rfl, Or.inr hver⟩
      conv_lhs => rw [(List.take_append_drop 2 r).symm]
      rw [htake]
  · rintro ⟨m, v, rfl, hm, hv⟩
    rcases hm with rfl | rfl
    · rcases hv with rfl | hv
      · exact Or.inl (Or.inl (Or.inl rfl))
      · exact Or.inl (Or.inr (by simpa using hv))
    · rcases hv with rfl | hv
      · exact Or.inl (Or.inl (Or.inr (by simp)))
      · have hd : ((['+', '+'] : List Char) ++ v).drop 2 = v := List.drop_left' rfl
        refine Or.inr ⟨List.take_left' rfl, ?_⟩
        rw [hd]
        exact hv

theorem clang_core_ok_iff (b : List Char) :
    clang_core_ok b = true ↔
      ∃ m v, b = ['c', 'l', 'a', 'n', 'g'] ++ m ++ v ∧
        (m = [] ∨ m = ['+', '+']) ∧ (v = [] ∨ clang_version_ok v = true) := by
  rw [clang_core_ok]
  simp only [Bool.and_eq_true, beq_iff_eq]
  constructor
  · rintro ⟨htake, htail⟩
    rcases (clang_tail_ok_iff _).mp htail with ⟨m, v, hmv, hm, hv⟩
    refine ⟨m, v, ?_, hm, hv⟩
    conv_lhs => rw [(List.take_append_drop 5 b).symm]
    rw [htake, hmv, List.append_assoc]
  · rintro ⟨m, v, rfl, hm, hv⟩
    rw [List.append_assoc]
    have hd : ((['c', 'l', 'a', 'n', 'g'] : List Char) ++ (m ++ v)).drop 5 =
        m ++ v := List.drop_left' rfl
    refine ⟨List.take_left' rfl, ?_⟩
    rw [hd]
    exact (clang_tail_ok_iff _).mpr ⟨m, v, rfl, hm, hv⟩

/-- The four transcribed patterns, disjoined, accept exactly
`code_compiler_core`. -/
theorem patterns_eq_code_core (t : List Char) :
    (pat_cc.rmatch t || (pat_gnu.rmatch t ||
      (pat_clang.rmatch t || pat_llvm.rmatch t))) = code_compiler_core t := by
  have hiff : (pat_cc.rmatch t || (pat_gnu.rmatch t ||
      (pat_clang.rmatch t || pat_llvm.rmatch t))) = true ↔
      code_compiler_core t = true := by
    rw [code_compiler_core]
    simp only [Bool.or_eq_true]
    rw [pat_cc_rmatch_iff, pat_gnu_rmatch_iff, pat_clang_rmatch_iff,
      pat_llvm_rmatch_iff]
    rw [splits_any_iff, splits_any_iff, splits_any_iff, splits_any_iff]
    constructor
    · rintro (h | h | h | h)
      · rcases h with ⟨p, b, rfl, hp, hb⟩
        refine Or.inl (Or.inl (Or.inl ⟨p, b, rfl, ?_⟩))
        simp only [Bool.and_eq_true, Bool.or_eq_true, beq_iff_eq]
        exact ⟨(slash_pre_ok_iff p).mpr hp, hb⟩
      · rcases h with ⟨p, b, rfl, hp, hcore⟩
        refine Or.inl (Or.inl (Or.inr ⟨p, b, rfl, ?_⟩))
        simp only [Bool.and_eq_true]
        exact ⟨(mixed_pre_ok_iff p).mpr hp, (gnu_core_ok_iff b).mpr hcore⟩
      · rcases h with ⟨p, b, rfl, hp, m, v, hb, hm, hv⟩
        refine Or.inl (Or.inr ⟨p, b, rfl, ?_⟩)
        simp only [Bool.and_eq_true]
        exact ⟨(mixed_pre_ok_iff p).mpr hp,
          (clang_core_ok_iff b).mpr ⟨m, v, hb, hm, hv⟩⟩
      · rcases h with ⟨p, b, rfl, hp, hb⟩
        refine Or.inr ⟨p, b, rfl, ?_⟩
        simp only [Bool.and_eq_true, Bool.or_eq_true, beq_iff_eq]
        exact ⟨(slash_pre_ok_iff p).mpr hp, hb⟩
    · rintro (((h | h) | h) | h)
      · rcases h with ⟨p, b, rfl, hf⟩
        simp only [Bool.and_eq_true, Bool.or_eq_true, beq_iff_eq] at hf
        exact Or.inl ⟨p, b, rfl, (slash_pre_ok_iff p).mp hf.1, hf.2⟩
      · rcases h with ⟨p, b, rfl, hf⟩
        simp only [Bool.and_eq_true] at hf
        exact Or.inr (Or.inl ⟨p, b, rfl, (mixed_pre_ok_iff p).mp hf.1,
          (gnu_core_ok_iff b).mp hf.2⟩)
      · rcases h with ⟨p, b, rfl, hf⟩
        simp only [Bool.and_eq_true] at hf
        rcases (clang_core_ok_iff b).mp hf.2 with ⟨m, v, hb, hm, hv⟩
        exact Or.inr (Or.inr (Or.inl ⟨p, b, rfl, (mixed_pre_ok_iff p).mp hf.1,
          m, v, hb, hm, hv⟩))
      · rcases h with ⟨p, b, rfl, hf⟩
        simp only [Bool.and_eq_true, Bool.or_eq_true, beq_iff_eq] at hf
        exact Or.inr (Or.inr (Or.inr ⟨p, b, rfl, (slash_pre_ok_iff p).mp hf.1,
          hf.2⟩))
  rcases hl : (pat_cc.rmatch t || (pat_gnu.rmatch t ||
      (pat_clang.rmatch t || pat_llvm.rmatch t))) with _ | _ <;>
    rcases hr : code_compiler_core t with _ | _
  · rfl
  · rw [hl, hr] at hiff
    exact absurd (hiff.mpr rfl) (by simp)
  · rw [hl, hr] at hiff
    exact absurd (hiff.mp rfl) (by simp)
  · rfl

/-- Boolean regrouping used to pull the shared trailing-newline disjunct of
`pymatch` out of the four patterns. -/
theorem bool_or_regroup (a1 b1 a2 b2 a3 b3 a4 b4 : Bool) :
    ((a1 || b1) || ((a2 || b2) || ((a3 || b3) || (a4 || b4)))) =
      ((a1 || (a2 || (a3 || a4))) || (b1 || (b2 || (b3 || b4)))) := by
  cases a1 <;> cases b1 <;> cases a2 <;> cases b2 <;> cases a3 <;> cases b3 <;>
    cases a4 <;> cases b4 <;> rfl

/-- `known_compiler` agrees with the structural charter on every token. -/
theorem known_compiler_eq_code_charter (s : String) :
    known_compiler [s] = code_compiler_charter s.toList := by
  rw [known_compiler]
  simp only [compilerPatterns, List.any_cons, List.any_nil, Bool.or_false]
  rw [code_compiler_charter]
  simp only [pymatch, ends_with]
  rcases hnl : (s.toList.getLast? == some '\n') with _ | _
  · simp only [Bool.false_and, Bool.or_false, Bool.false_or]
    exact patterns_eq_code_core s.toList
  · simp only [Bool.true_and]
    rw [bool_or_regroup]
    rw [patterns_eq_code_core s.toList, patterns_eq_code_core s.toList.dropLast]

/-! ## Lemmas about `pysplit` and `parse` -/

theorem pysplit_ne_nil (sep : Char) (l : List Char) : pysplit sep l ≠ [] := by
  cases l with
  | nil => simp [pysplit]
  | cons c rest =>
    cases h : pysplit sep rest with
    | nil => simp [pysplit, h]
    | cons t ts => by_cases hc : c = sep <;> simp [pysplit, h, hc]

theorem pysplit_nosep (sep : Char) (a : List Char) (h : ∀ c ∈ a, c ≠ sep) :
    pysplit sep a = [a] := by
  induction a with
  | nil => rfl
  | cons c rest ih =>
    have hc : c ≠ sep := h c (List.mem_cons_self _ _)
    have ih2 := ih (fun d hd => h d (List.mem_cons_of_mem _ hd))
    simp [pysplit, ih2, hc]

theorem pysplit_append_sep (sep : Char) (a rest : List Char)
    (h : ∀ c ∈ a, c ≠ sep) :
    pysplit sep (a ++ sep :: rest) = a :: pysplit sep rest := by
  induction a with
  | nil =>
    cases hres : pysplit sep rest with
    | nil => exact absurd hres (pysplit_ne_nil sep rest)
    | cons t ts => simp [pysplit, hres]
  | cons c a ih =>
    have hc : c ≠ sep := h c (List.mem_cons_self _ _)
    have ih2 := ih (fun d hd => h d (List.mem_cons_of_mem _ hd))
    simp [pysplit, ih2, hc]

theorem mem_encode_command (toks : List (List Char)) (c : Char)
    (hc : c ∈ encode_command toks) : c = US ∨ ∃ t ∈ toks, c ∈ t := by
  induction toks with
  | nil => exact absurd hc (List.not_mem_nil c)
  | cons t ts ih =>
    rcases List.mem_append.mp hc with hc | hc
    · exact Or.inr ⟨t, List.mem_cons_self _ _, hc⟩
    · rcases List.mem_cons.mp hc with rfl | hc
      · exact Or.inl rfl
      · rcases ih hc with h | ⟨u, hu, hcu⟩
        · exact Or.inl h
        · exact Or.inr ⟨u, List.mem_cons_of_mem _ hu, hcu⟩

theorem pysplit_encode_command (toks : List (List Char))
    (h : ∀ t ∈ toks, ∀ c ∈ t, c ≠ US) :
    pysplit US (encode_command toks) = toks ++ [[]] := by
  induction toks with
  | nil => rfl
  | cons t toks ih =>
    rw [show encode_command (t :: toks) = t ++ US :: encode_command toks from rfl]
    rw [pysplit_append_sep US t _ (h t (List.mem_cons_self _ _))]
    rw [ih (fun u hu c hc => h u (List.mem_cons_of_mem _ hu) c hc)]
    rfl

theorem parse_short (content : String)
    (h : (pysplit RS content.toList).length < 5) :
    parse content = .error "IndexError" := by
  rw [parse]
  rcases hsp : pysplit RS content.toList with
    _ | ⟨a, _ | ⟨b, _ | ⟨c, _ | ⟨d, _ | ⟨e, rest⟩⟩⟩⟩⟩
  · rfl
  · rfl
  · rfl
  · rfl
  · rfl
  · rw [hsp] at h
    simp at h
    omega

theorem parse_wellformed (p pp fn dir : List Char) (toks : List (List Char))
    (hp : ∀ c ∈ p, c ≠ RS) (hpp : ∀ c ∈ pp, c ≠ RS)
    (hfn : ∀ c ∈ fn, c ≠ RS) (hdir : ∀ c ∈ dir, c ≠ RS)
    (htoks : ∀ t ∈ toks, ∀ c ∈ t, c ≠ RS ∧ c ≠ US) :
    parse (String.mk
        (p ++ RS :: (pp ++ RS :: (fn ++ RS :: (dir ++ RS ::
          encode_command toks))))) =
      .ok { pid := String.mk p, ppid := String.mk pp,
            function := String.mk fn, directory := String.mk dir,
            command := toks.map String.mk } := by
  have hfield : ∀ c ∈ encode_command toks, c ≠ RS := by
    intro c hc
    rcases mem_encode_command toks c hc with rfl | ⟨t, ht, hct⟩
    · intro hUS
      exact absurd hUS (by decide)
    · exact (htoks t ht c hct).1
  have hsp : pysplit RS (String.mk
      (p ++ RS :: (pp ++ RS :: (fn ++ RS :: (dir ++ RS ::
        encode_command toks))))).toList =
      p :: pp :: fn :: dir :: [encode_command toks] := by
    rw [show (String.mk (p ++ RS :: (pp ++ RS :: (fn ++ RS :: (dir ++ RS ::
      encode_command toks))))).toList =
      p ++ RS :: (pp ++ RS :: (fn ++ RS :: (dir ++ RS ::
        encode_command toks))) from rfl]
    rw [pysplit_append_sep RS p _ hp, pysplit_append_sep RS pp _ hpp,
      pysplit_append_sep RS fn _ hfn, pysplit_append_sep RS dir _ hdir,
      pysplit_nosep RS _ hfield]
  rw [parse, hsp]
  dsimp only
  have hcmd : pysplit US (encode_command toks) = toks ++ [[]] :=
    pysplit_encode_command toks (fun t ht c hc => (htoks t ht c hc).2)
  rw [hcmd, List.dropLast_concat]

/-! ## Lemmas about the two `main` paths -/

theorem main_filtered_build_exit (classify : List String → Action × List String)
    (cwd : String) (fs : String → Bool) (e : Int) (a : Bool)
    (ex : List CompilationEntry) (tr : List String) :
    (main_filtered classify cwd fs e a ex tr).map Prod.fst =
      (main_filtered classify cwd fs e a ex tr).map (fun _ => e) := by
  rw [main_filtered]
  cases h : collect_filtered classify cwd tr <;>
    simp [Except.map, h, Bind.bind, Except.bind, pure, Except.pure]

theorem main_filtered_db_independent
    (classify : List String → Action × List String)
    (cwd : String) (fs : String → Bool) (e1 e2 : Int) (a : Bool)
    (ex : List CompilationEntry) (tr : List String) :
    (main_filtered classify cwd fs e1 a ex tr).map Prod.snd =
      (main_filtered classify cwd fs e2 a ex tr).map Prod.snd := by
  rw [main_filtered, main_filtered]
  cases h : collect_filtered classify cwd tr <;>
    simp [Except.map, h, Bind.bind, Except.bind, pure, Except.pure]

theorem dict_get_record_file (r : ProcessRecord) :
    dict_get (record_items r) "file" = .error "KeyError" := rfl

theorem mergeAux_u_record_head (fs : String → Bool) (st : List String)
    (r : ProcessRecord) (rest : List CdbItem) :
    mergeAux_u fs st (CdbItem.record r :: rest) = .error "KeyError" := rfl

theorem main_unfiltered_ok_iff (fs : String → Bool) (e : Int)
    (tr : List String) :
    except_isOk (main_unfiltered fs e false [] tr) = tr.isEmpty := by
  cases tr with
  | nil => rfl
  | cons t ts =>
    rw [main_unfiltered]
    simp only [if_neg (by simp : ¬False), List.isEmpty_cons]
    cases hp : parse t with
    | error msg =>
      simp [collect_records, hp, Bind.bind, Except.bind, except_isOk]
    | ok r =>
      cases hrest : collect_records ts with
      | error msg =>
        simp [collect_records, hp, hrest, Bind.bind, Except.bind, except_isOk]
      | ok rs =>
        simp [collect_records, hp, hrest, Bind.bind, Except.bind, except_isOk,
          merge_u, mergeAux_u_record_head, pure, Except.pure]

/-! ## The claims -/

/-- Claim C1 (code bug): the expander is claimed to resolve a relative
source operand against the record's `directory`; the source instead calls
`os.path.abspath`, which resolves against the working directory of the
tool itself.  For the trace record `cc -c a.c -o a.o` in directory `/src`,
running the tool from `/tmp` yields `file = "/tmp/a.c"`, not the claimed
`/src/a.c`; the claimed entry appears only when the tool happens to run
from `/src`. -/
theorem claim_C1_file_resolved_against_tool_cwd :
    format_record demo_classify "/tmp"
        [{ pid := "1", ppid := "0", function := "execve", directory := "/src",
           command := ["cc", "-c", "a.c", "-o", "a.o"] }] =
      [{ directory := "/src", command := "cc -c a.c -o a.o",
         file := "/tmp/a.c" }] ∧
    format_record demo_classify "/src"
        [{ pid := "1", ppid := "0", function := "execve", directory := "/src",
           command := ["cc", "-c", "a.c", "-o", "a.o"] }] =
      [{ directory := "/src", command := "cc -c a.c -o a.o",
         file := "/src/a.c" }] := by
  constructor <;> decide

/-- Claim C2: every entry surviving `merge` has an existing file, and an
entry whose file does not exist is dropped without any effect on the rest
of the pass — removing it from either input list leaves the result
unchanged (it never enters the duplicate bookkeeping). -/
theorem claim_C2_existence_filtering :
    (∀ (fs : String → Bool) (old new : List CompilationEntry)
        (e : CompilationEntry), e ∈ merge fs old new → fs e.file = true) ∧
    (∀ (fs : String → Bool) (old l1 l2 : List CompilationEntry)
        (e : CompilationEntry), fs e.file = false →
        merge fs old (l1 ++ e :: l2) = merge fs old (l1 ++ l2)) ∧
    (∀ (fs : String → Bool) (l1 l2 new : List CompilationEntry)
        (e : CompilationEntry), fs e.file = false →
        merge fs (l1 ++ e :: l2) new = merge fs (l1 ++ l2) new) := by
  refine ⟨?_, ?_, ?_⟩
  · intro fs old new e he
    exact (mem_mergeAux fs [] _ e he).1
  · intro fs old l1 l2 e h
    rw [merge, merge, show old ++ (l1 ++ e :: l2) = (old ++ l1) ++ e :: l2 by
      simp, show old ++ (l1 ++ l2) = (old ++ l1) ++ l2 by simp]
    exact congrArg Prod.fst (mergeAux_skip fs [] (old ++ l1) l2 e h)
  · intro fs l1 l2 new e h
    rw [merge, merge, show (l1 ++ e :: l2) ++ new = l1 ++ e :: (l2 ++ new) by
      simp, show (l1 ++ l2) ++ new = l1 ++ (l2 ++ new) by simp]
    exact congrArg Prod.fst (mergeAux_skip fs [] l1 (l2 ++ new) e h)

/-- Witness for claim C2 at a concrete filesystem and entry lists. -/
theorem claim_C2_existence_filtering_witness :
    (fun s => s == "/src/a.c")
        (CompilationEntry.mk "/src" "cc -c a.c" "/src/a.c").file = true ∧
    merge (fun s => s == "/src/a.c") []
        ([] ++ CompilationEntry.mk "/src" "cc -c gone.c" "/src/gone.c" ::
          [CompilationEntry.mk "/src" "cc -c a.c" "/src/a.c"]) =
      merge (fun s => s == "/src/a.c") []
        ([] ++ [CompilationEntry.mk "/src" "cc -c a.c" "/src/a.c"]) :=
  ⟨claim_C2_existence_filtering.1 (fun s => s == "/src/a.c") []
      [CompilationEntry.mk "/src" "cc -c gone.c" "/src/gone.c",
        CompilationEntry.mk "/src" "cc -c a.c" "/src/a.c"]
      (CompilationEntry.mk "/src" "cc -c a.c" "/src/a.c") (by decide),
    claim_C2_existence_filtering.2.1 (fun s => s == "/src/a.c") [] []
      [CompilationEntry.mk "/src" "cc -c a.c" "/src/a.c"]
      (CompilationEntry.mk "/src" "cc -c gone.c" "/src/gone.c") (by decide)⟩

/-- Claim C3: `merge` processes `existing ++ incoming` in order and keeps an
entry exactly when its file exists and no earlier entry whose file exists
has the same deduplication key (`first_seen_spec`); in the append scenario —
one existing entry for `/src/a.c` and an incoming entry for the same file
with a different compiler alias but identical remaining arguments — the
result is exactly the original entry. -/
theorem claim_C3_first_seen_wins :
    (∀ (fs : String → Bool) (old new : List CompilationEntry),
        merge fs old new = first_seen_spec fs [] (old ++ new)) ∧
    merge (fun s => s == "/src/a.c")
        [{ directory := "/src", command := "cc -c a.c -o a.o",
           file := "/src/a.c" }]
        [{ directory := "/src", command := "clang -c a.c -o a.o",
           file := "/src/a.c" }] =
      [{ directory := "/src", command := "cc -c a.c -o a.o",
         file := "/src/a.c" }] :=
  ⟨merge_eq_first_seen_aux, by decide⟩

/-- Claim C4: merging is idempotent over an unchanged filesystem:
`merge (merge D C) C = merge D C`. -/
theorem claim_C4_merge_idempotent (fs : String → Bool)
    (D C : List CompilationEntry) :
    merge fs (merge fs D C) C = merge fs D C :=
  merge_idem_aux fs D C

/-- Claim C5: a record with an argument `-cc1` after the executable is
rejected by the filter even when the executable matches a compiler
pattern; in particular a `clang` invocation carrying `-cc1` matches the
pattern yet `cancel_parameter` fires. -/
theorem claim_C5_cc1_exclusion :
    (∀ (records : List ProcessRecord) (r : ProcessRecord),
        known_compiler r.command = true → "-cc1" ∈ r.command.drop 1 →
        r ∉ general_filter records) ∧
    (∀ rest : List String, "-cc1" ∈ rest →
        known_compiler ("clang" :: rest) = true ∧
          cancel_parameter ("clang" :: rest) = true) := by
  have hcancel : ∀ cmd : List String, "-cc1" ∈ cmd.drop 1 →
      cancel_parameter cmd = true := by
    intro cmd h
    rw [cancel_parameter, List.any_eq_true]
    exact ⟨"-cc1", h, by decide⟩
  constructor
  · intro records r _ hmem hfilter
    have := (List.mem_filter.mp hfilter).2
    rw [hcancel r.command hmem] at this
    simp at this
  · intro rest h
    exact ⟨rfl, hcancel ("clang" :: rest) (by simpa using h)⟩

/-- Witness for claim C5 at a concrete `clang -cc1` record. -/
theorem claim_C5_cc1_exclusion_witness :
    ProcessRecord.mk "1" "0" "execve" "/src" ["clang", "-cc1", "a.c"] ∉
      general_filter [ProcessRecord.mk "1" "0" "execve" "/src"
        ["clang", "-cc1", "a.c"]] ∧
    known_compiler ["clang", "-cc1", "a.c"] = true ∧
    cancel_parameter ["clang", "-cc1", "a.c"] = true :=
  ⟨claim_C5_cc1_exclusion.1
      [ProcessRecord.mk "1" "0" "execve" "/src" ["clang", "-cc1", "a.c"]]
      (ProcessRecord.mk "1" "0" "execve" "/src" ["clang", "-cc1", "a.c"])
      (by decide) (by decide),
    claim_C5_cc1_exclusion.2 ["-cc1", "a.c"] (by decide)⟩

/-- Claim C6 counterexample: the claim describes the accepted version
suffixes as dotted (`-4.9`-like) and the Clang form as prefix-free, but the
unescaped `.` in the source pattern `-[2345].[0-9]` matches any character:
the token `gcc-4x9` is accepted by `known_compiler` while the claim's
charter excludes it. -/
theorem claim_C6_counterexample :
    known_compiler ["gcc-4x9"] = true ∧
      claim_compiler_charter "gcc-4x9".toList = false := by
  constructor <;> rfl

/-- Claim C6 (amended): `known_compiler` accepts, case-sensitively over the
whole token (tolerating one trailing newline), exactly: an optional
directory prefix ending in `/` followed by `cc`, `c++`, `llvm-gcc` or
`llvm-g++`; or — after any prefix that is empty or ends in `/` or `-` —
`gcc`/`g++` optionally followed by `-`, a digit `2`–`5`, one arbitrary
non-newline character and a digit, or `clang` optionally followed by `++`
and optionally by `-`, a digit `2`–`3`, one arbitrary non-newline character
and a digit.  In particular `g++-4.9`, `clang-3.8` and `arm-none-eabi-gcc`
match while `gccfoo`, `/usr/bin/python` and `my-clang-wrapper` do not. -/
theorem claim_C6_recognizer_charter :
    (∀ s : String, known_compiler [s] = code_compiler_charter s.toList) ∧
    known_compiler ["g++-4.9"] = true ∧
    known_compiler ["clang-3.8"] = true ∧
    known_compiler ["arm-none-eabi-gcc"] = true ∧
    known_compiler ["gccfoo"] = false ∧
    known_compiler ["/usr/bin/python"] = false ∧
    known_compiler ["my-clang-wrapper"] = false := by
  refine ⟨known_compiler_eq_code_charter, ?_, ?_, ?_, ?_, ?_, ?_⟩ <;> rfl

/-- Claim C7: the deduplication key is built from the reversed file path,
the reversed directory path and the command with its first token removed,
so entries equal in `directory`, `file` and all command tokens after the
first receive equal keys, and `merge` keeps only the first of such a pair
when the file exists. -/
theorem claim_C7_dedup_key_alias_collapse (fs : String → Bool)
    (e1 e2 : CompilationEntry) (hdir : e1.directory = e2.directory)
    (hfile : e1.file = e2.file)
    (htail : (shlex_split e1.command).drop 1 = (shlex_split e2.command).drop 1) :
    hash_cdb e1 = hash_cdb e2 ∧
      (fs e1.file = true → merge fs [e1] [e2] = [e1]) := by
  have hkey : hash_cdb e1 = hash_cdb e2 := by
    rw [hash_cdb, hash_cdb, hdir, hfile, htail]
  refine ⟨hkey, fun hfs => ?_⟩
  rw [merge, show ([e1] ++ [e2]) = e1 :: [e2] from rfl]
  rw [mergeAux_cons_keep _ hfs (by simp)]
  rw [mergeAux_cons_dup _ (by rw [← hfile]; exact hfs)
    (by rw [← hkey]; exact List.mem_cons_self _ _)]
  rfl

/-- Witness for claim C7 at the `cc`/`clang` alias pair. -/
theorem claim_C7_dedup_key_alias_collapse_witness :
    hash_cdb (CompilationEntry.mk "/src" "cc -c a.c -o a.o" "/src/a.c") =
      hash_cdb (CompilationEntry.mk "/src" "clang -c a.c -o a.o" "/src/a.c") ∧
    merge (fun s => s == "/src/a.c")
        [CompilationEntry.mk "/src" "cc -c a.c -o a.o" "/src/a.c"]
        [CompilationEntry.mk "/src" "clang -c a.c -o a.o" "/src/a.c"] =
      [CompilationEntry.mk "/src" "cc -c a.c -o a.o" "/src/a.c"] := by
  have h := claim_C7_dedup_key_alias_collapse (fun s => s == "/src/a.c")
    (CompilationEntry.mk "/src" "cc -c a.c -o a.o" "/src/a.c")
    (CompilationEntry.mk "/src" "clang -c a.c -o a.o" "/src/a.c")
    rfl rfl (by decide)
  exact ⟨h.1, h.2 (by decide)⟩

/-- Claim C8: `parse` splits a trace file on the record separator into
`pid`, `ppid`, `function`, `directory` and the command field in that fixed
order, splits the command field on the unit separator discarding the
trailing empty token, raises `IndexError` when fewer than five fields are
present, and reading an unopenable file raises `IOError`. -/
theorem claim_C8_trace_parsing :
    (∀ content : String, (pysplit RS content.toList).length < 5 →
        parse content = .error "IndexError") ∧
    (∀ (p pp fn dir : List Char) (toks : List (List Char)),
        (∀ c ∈ p, c ≠ RS) → (∀ c ∈ pp, c ≠ RS) → (∀ c ∈ fn, c ≠ RS) →
        (∀ c ∈ dir, c ≠ RS) → (∀ t ∈ toks, ∀ c ∈ t, c ≠ RS ∧ c ≠ US) →
        parse (String.mk (p ++ RS :: (pp ++ RS :: (fn ++ RS :: (dir ++ RS ::
            encode_command toks))))) =
          .ok { pid := String.mk p, ppid := String.mk pp,
                function := String.mk fn, directory := String.mk dir,
                command := toks.map String.mk }) ∧
    parse_file none = .error "IOError" :=
  ⟨parse_short, parse_wellformed, rfl⟩

/-- Witness for claim C8: a malformed one-field file and a well-formed
record for `cc -c a.c` in `/src`. -/
theorem claim_C8_trace_parsing_witness :
    parse "toofew" = .error "IndexError" ∧
    parse (String.mk ("12".toList ++ RS :: ("7".toList ++ RS ::
        ("execve".toList ++ RS :: ("/src".toList ++ RS ::
          encode_command ["cc".toList, "-c".toList, "a.c".toList]))))) =
      .ok { pid := "12", ppid := "7", function := "execve",
            directory := "/src", command := ["cc", "-c", "a.c"] } :=
  ⟨claim_C8_trace_parsing.1 "toofew" (by decide),
    claim_C8_trace_parsing.2.1 "12".toList "7".toList "execve".toList
      "/src".toList ["cc".toList, "-c".toList, "a.c".toList]
      (by decide) (by decide) (by decide) (by decide) (by decide)⟩

/-- Claim C9: when the build exits non-zero, collection, merging and
database writing still proceed — the database produced by `main` does not
depend on the exit code — and the value `main` returns is exactly the
build's exit code. -/
theorem claim_C9_build_exit_code_propagated
    (classify : List String → Action × List String) (cwd : String)
    (fs : String → Bool) (e e2 : Int) (a : Bool)
    (ex : List CompilationEntry) (tr : List String) :
    (main_filtered classify cwd fs e a ex tr).map Prod.fst =
      (main_filtered classify cwd fs e a ex tr).map (fun _ => e) ∧
    (main_filtered classify cwd fs e a ex tr).map Prod.snd =
      (main_filtered classify cwd fs e2 a ex tr).map Prod.snd :=
  ⟨main_filtered_build_exit classify cwd fs e a ex tr,
    main_filtered_db_independent classify cwd fs e e2 a ex tr⟩

/-- Claim C10: on the `--disable-filter` path `collect` returns raw records
whose dictionaries carry `pid`, `ppid`, `function`, `directory` and
`command` but no `file` key, so the `entry['file']` lookup of `merge`
raises `KeyError` on every raw record, and the unfiltered pipeline
completes exactly when no trace file (hence no record) is present. -/
theorem claim_C10_disable_filter_keyerror :
    (∀ r : ProcessRecord,
        dict_get (record_items r) "command" = .ok (.strs r.command) ∧
        dict_get (record_items r) "file" = .error "KeyError") ∧
    (∀ (fs : String → Bool) (st : List String) (r : ProcessRecord)
        (rest : List CdbItem),
        mergeAux_u fs st (CdbItem.record r :: rest) = .error "KeyError") ∧
    (∀ (fs : String → Bool) (e : Int) (tr : List String),
        except_isOk (main_unfiltered fs e false [] tr) = tr.isEmpty) :=
  ⟨fun r => ⟨rfl, dict_get_record_file r⟩, mergeAux_u_record_head,
    main_unfiltered_ok_iff⟩

end Bear
